import Mathlib

/-!
Verification development for the trie-based tokenizer utilities of this
repository (`examples/trie_utils.py`).

The Python trie node is a nested dict whose keys are single characters,
with the reserved key `""` (the termination char) marking the end of a
word.  Python dicts preserve insertion order, so a node is embedded as a
termination flag together with an association list of children in
insertion order.  Texts and words are embedded as `List Char`.
-/

inductive TrieNode : Type where
  | mk : Bool → List (Char × TrieNode) → TrieNode

def TrieNode.term : TrieNode → Bool
  | .mk b _ => b

def TrieNode.children : TrieNode → List (Char × TrieNode)
  | .mk _ cs => cs

/-- First-match association-list lookup, i.e. `d[c]` on the children (the
reserved termination key is kept separately in the `term` flag). -/
def lookupChild : List (Char × TrieNode) → Char → Option TrieNode
  | [], _ => none
  | (c, t) :: rest, d => if c = d then some t else lookupChild rest d

/-- `c in node` / `node[c]` for a real character key. -/
def TrieNode.find? (t : TrieNode) (c : Char) : Option TrieNode :=
  lookupChild t.children c

/-- In-place update of an existing key of a Python dict: the key keeps its
position in insertion order. -/
def updateAssoc : List (Char × TrieNode) → Char → TrieNode → List (Char × TrieNode)
  | [], _, _ => []
  | (c, t) :: rest, d, v => if c = d then (d, v) :: rest else (c, t) :: updateAssoc rest d v

/-- The node-tree part of `Trie.add`: walk `word`, using `setdefault` to
create missing children (appended at the end, preserving dict order), and
mark the final node with the termination key. -/
def addChars : TrieNode → List Char → TrieNode
  | n, [] => .mk true n.children
  | n, c :: cs =>
      match n.find? c with
      | some child => .mk n.term (updateAssoc n.children c (addChars child cs))
      | none => .mk n.term (n.children ++ [(c, addChars (.mk false []) cs)])

/-- `Trie`: the root node (`self.data`) plus the set of inserted words
(`self._tokens`, a Python `set`). -/
structure Trie : Type where
  data : TrieNode
  tokens : Finset (List Char)

/-- `Trie.__init__` with no words. -/
def Trie.new : Trie := ⟨.mk false [], ∅⟩

/-- `Trie.add`: no-op on the empty word, otherwise add to the token set and
extend the node tree. -/
def Trie.add (t : Trie) (word : List Char) : Trie :=
  if word = [] then t
  else ⟨addChars t.data word, insert word t.tokens⟩

/-- `Trie.update` / `Trie.__init__(*args)`: fold `add` over a list of words.
Any sequence of construction, `update` and `add` calls amounts to this. -/
def buildTrie (ws : List (List Char)) : Trie :=
  ws.foldl Trie.add Trie.new

/-! ### `Trie.split`

The split scan state: `states` is the ordered dict mapping start offsets to
trie pointers (keys are inserted in increasing order, so list order is
insertion order), `offsets` the growing cut list, `skip` the lookahead
barrier. -/

structure SState : Type where
  states : List (Nat × TrieNode)
  offsets : List Nat
  skip : Nat

/-- The `while next_char in looktrie_pointer` lookahead walk.  `rest` is the
cursor `text[li:]` (so `next_char` is its head); the accumulator `(s, e, sk)`
holds the variables `start`, `end`, `skip`, overwritten together whenever a
termination key is passed. -/
def lookWhile (lookstart : Nat) : TrieNode → List Char → Nat → Nat × Nat × Nat → Nat × Nat × Nat
  | _, [], _, acc => acc
  | ptr, c :: rest, li, acc =>
      match ptr.find? c with
      | none => acc
      | some ptr' =>
          lookWhile lookstart ptr' rest (li + 1)
            (if ptr'.term then (lookstart, li + 1, li + 1) else acc)

/-- The `for lookstart, looktrie_pointer in states.items()` lookahead loop.
Breaks at the first entry whose key exceeds the current `start`; earlier
entries were already advanced past `current` (index `current + 1`), the
co-located entry was not (index `current`).  `end` is (re)assigned in each
non-breaking iteration before the terminal checks. -/
def lookaheadLoop (text : List Char) (current : Nat) :
    List (Nat × TrieNode) → Nat × Nat × Nat → Nat × Nat × Nat
  | [], acc => acc
  | (lookstart, lookptr) :: rest, (s, e, sk) =>
      if lookstart > s then (s, e, sk)
      else
        let li := if lookstart < s then current + 1 else current
        let acc1 := if lookptr.term then (lookstart, li, li) else (s, li, sk)
        lookaheadLoop text current rest (lookWhile lookstart lookptr (text.drop li) li acc1)

/-- Result of the `for start, trie_pointer in states.items()` loop of one
main-loop iteration: either a match was found (`reset`, carrying the final
`start`, `end`, `skip` from the lookahead), or the surviving states advance
(`advance`, carrying the in-place-updated dict and the `to_remove` keys). -/
inductive StepOut : Type where
  | reset : Nat → Nat → Nat → StepOut
  | advance : List (Nat × TrieNode) → List Nat → StepOut

/-- One pass over `states.items()`.  `done` is the already-visited prefix of
the dict (entries updated in place where the current char matched, kept with
their old pointer where it did not — those are only marked in `to_remove`
and deleted after the loop).  On a terminal entry the lookahead runs over
the whole dict in its current state.  The lookahead's `end` variable is not
yet assigned on entry; it is first read only after the first iteration
assigns it, so the initial accumulator's `end` component (`current`) is
never observed. -/
def statesLoop (text : List Char) (current : Nat) (cc : Char) (sk : Nat) :
    List (Nat × TrieNode) → List (Nat × TrieNode) → List Nat → StepOut
  | done, [], rem => .advance done rem
  | done, (start, ptr) :: rest, rem =>
      if ptr.term then
        let r := lookaheadLoop text current (done ++ (start, ptr) :: rest) (start, current, sk)
        .reset r.1 r.2.1 r.2.2
      else
        match ptr.find? cc with
        | some ptr' => statesLoop text current cc sk (done ++ [(start, ptr')]) rest rem
        | none => statesLoop text current cc sk (done ++ [(start, ptr)]) rest (rem ++ [start])

/-- Registration of a new partial match: `if current >= skip and
current_char in self.data: states[current] = self.data[current_char]`. -/
def regStep (root : TrieNode) (current : Nat) (cc : Char) (st1 : SState) : SState :=
  match root.find? cc with
  | some child =>
      if st1.skip ≤ current then ⟨st1.states ++ [(current, child)], st1.offsets, st1.skip⟩
      else st1
  | none => st1

/-- The body of `for current, current_char in enumerate(text)`:  the
`skip`-guard, the states loop, the reset-or-delete step, and registration of
a new partial match at `current`. -/
def charStep (root : TrieNode) (text : List Char) (st : SState) (current : Nat) (cc : Char) :
    SState :=
  if st.skip ≠ 0 ∧ current < st.skip then st
  else
    regStep root current cc
      (match statesLoop text current cc st.skip [] st.states [] with
       | .reset s e sk => ⟨[], st.offsets ++ [s, e], sk⟩
       | .advance ns rem => ⟨ns.filter (fun p => ¬ p.1 ∈ rem), st.offsets, st.skip⟩)

/-- `enumerate(text)` as a recursion carrying the index `i` and the cursor
`text[i:]`. -/
def runSplit (root : TrieNode) (text : List Char) : Nat → List Char → SState → SState
  | _, [], st => st
  | i, c :: rest, st => runSplit root text (i + 1) rest (charStep root text st i c)

def splitLoop (root : TrieNode) (text : List Char) : SState :=
  runSplit root text 0 text ⟨[], [0], 0⟩

/-- The trailing `for start, trie_pointer in states.items()` loop: the first
still-terminal state records the cut `(start, len(text))`. -/
def endStates (n : Nat) : List (Nat × TrieNode) → List Nat → List Nat
  | [], offs => offs
  | (start, ptr) :: rest, offs =>
      if ptr.term then offs ++ [start, n] else endStates n rest offs

/-- `text[s:e]` for `s ≤ e` (Python slices clamp at the ends). -/
def sliceTxt (text : List Char) (s e : Nat) : List Char :=
  (text.drop s).take (e - s)

/-- The `for end in offsets` loop of `cut_text`.  On an inverted span
(`start > end`) the code calls `logger.error`, but the module never defines
or imports `logger`, so that call raises `NameError` and the whole call
aborts: embedded as `Except.error ()`. -/
def cutLoop (text : List Char) : List Nat → Nat → List (List Char) → Except Unit (List (List Char))
  | [], _, toks => .ok toks
  | e :: rest, s, toks =>
      if s > e then .error ()
      else if s = e then cutLoop text rest s toks
      else cutLoop text rest e (toks ++ [sliceTxt text s e])

/-- `Trie.cut_text` (it reads nothing from `self`): append `len(text)` to
the offsets, then emit the fragments. -/
def Trie.cut_text (text : List Char) (offsets : List Nat) : Except Unit (List (List Char)) :=
  cutLoop text (offsets ++ [text.length]) 0 []

/-- `Trie.split`. -/
def Trie.split (t : Trie) (text : List Char) : Except Unit (List (List Char)) :=
  let st := splitLoop t.data text
  Trie.cut_text text (endStates text.length st.states st.offsets)

/-! ### `ExtensionsTrie` -/

/-- `ExtensionsTrie._get_node`: walk `token` from the root, but on a missing
character `break` out and return the last node reached. -/
def ExtensionsTrie.getNode : TrieNode → List Char → TrieNode
  | n, [] => n
  | n, c :: cs =>
      match n.find? c with
      | none => n
      | some n' => ExtensionsTrie.getNode n' cs

mutual

/-- `ExtensionsTrie._collect_tokens`: the termination entry contributes the
empty suffix first, then each child contributes its suffixes in dict
order. -/
def collectTokens : TrieNode → List (List Char)
  | .mk term cs => (if term then [[]] else []) ++ collectChildren cs

def collectChildren : List (Char × TrieNode) → List (List Char)
  | [] => []
  | (c, t) :: rest => (collectTokens t).map (fun s => c :: s) ++ collectChildren rest

end

/-- `ExtensionsTrie.extensions`. -/
def ExtensionsTrie.extensions (t : Trie) (pre : List Char) : List (List Char) :=
  (collectTokens (ExtensionsTrie.getNode t.data pre)).map (fun s => pre ++ s)

/-! ### `_insert_one_token_to_ordered_list`

`bisect.bisect_left` is a `while lo < hi` binary search; it is embedded with
an explicit fuel argument (`hi - lo` strictly decreases, and the initial
fuel `len a` always suffices).  The list functions are generic in the
element type, ordered as Python compares the elements. -/

def bisectLeftAux {α : Type} [LinearOrder α] (a : List α) (x : α) : Nat → Nat → Nat → Nat
  | 0, lo, _ => lo
  | fuel + 1, lo, hi =>
      if lo < hi then
        let mid := (lo + hi) / 2
        if a.getD mid x < x then bisectLeftAux a x fuel (mid + 1) hi
        else bisectLeftAux a x fuel lo mid
      else lo

def bisect_left {α : Type} [LinearOrder α] (a : List α) (x : α) : Nat :=
  bisectLeftAux a x a.length 0 a.length

/-- Python `list.insert` (clamps the index to the list length). -/
def listInsertAt {α : Type} (l : List α) (i : Nat) (x : α) : List α :=
  l.take i ++ x :: l.drop i

/-- `_insert_one_token_to_ordered_list` (returning the new list instead of
mutating in place). -/
def insert_one_token_to_ordered_list {α : Type} [LinearOrder α] (token_list : List α)
    (new_token : α) : List α :=
  let insertion_idx := bisect_left token_list new_token
  if insertion_idx < token_list.length ∧ token_list.get? insertion_idx = some new_token then
    token_list
  else
    listInsertAt token_list insertion_idx new_token

/-! ### Basic association-list lemmas -/

theorem lookupChild_updateAssoc_self {l : List (Char × TrieNode)} {c : Char} {w v : TrieNode}
    (h : lookupChild l c = some w) : lookupChild (updateAssoc l c v) c = some v := by
  induction l with
  | nil => simp [lookupChild] at h
  | cons p rest ih =>
      obtain ⟨c', t'⟩ := p
      by_cases hc : c' = c
      · subst hc
        simp [lookupChild, updateAssoc]
      · simp [lookupChild, updateAssoc, hc] at h ⊢
        exact ih h

theorem updateAssoc_updateAssoc (l : List (Char × TrieNode)) (c : Char) (v v' : TrieNode) :
    updateAssoc (updateAssoc l c v) c v' = updateAssoc l c v' := by
  induction l with
  | nil => simp [updateAssoc]
  | cons p rest ih =>
      obtain ⟨c', t'⟩ := p
      by_cases hc : c' = c
      · subst hc
        simp [updateAssoc]
      · simp [updateAssoc, hc, ih]

theorem updateAssoc_self {l : List (Char × TrieNode)} {c : Char} {v : TrieNode}
    (h : lookupChild l c = some v) : updateAssoc l c v = l := by
  induction l with
  | nil => simp [lookupChild] at h
  | cons p rest ih =>
      obtain ⟨c', t'⟩ := p
      by_cases hc : c' = c
      · subst hc
        simp [lookupChild] at h
        simp [updateAssoc, h]
      · simp [lookupChild, hc] at h
        simp [updateAssoc, hc, ih h]

theorem lookupChild_append_of_none {l l' : List (Char × TrieNode)} {c : Char}
    (h : lookupChild l c = none) : lookupChild (l ++ l') c = lookupChild l' c := by
  induction l with
  | nil => simp
  | cons p rest ih =>
      obtain ⟨c', t'⟩ := p
      by_cases hc : c' = c
      · simp [lookupChild, hc] at h
      · simp [lookupChild, hc] at h ⊢
        exact ih h

theorem lookupChild_append_of_some {l l' : List (Char × TrieNode)} {c : Char} {v : TrieNode}
    (h : lookupChild l c = some v) : lookupChild (l ++ l') c = some v := by
  induction l with
  | nil => simp [lookupChild] at h
  | cons p rest ih =>
      obtain ⟨c', t'⟩ := p
      by_cases hc : c' = c
      · simp [lookupChild, hc] at h ⊢
        exact h
      · simp [lookupChild, hc] at h ⊢
        exact ih h

/-! ### Small unfolding lemmas -/

@[simp] theorem TrieNode.term_mk (b : Bool) (cs : List (Char × TrieNode)) :
    (TrieNode.mk b cs).term = b := rfl

@[simp] theorem TrieNode.children_mk (b : Bool) (cs : List (Char × TrieNode)) :
    (TrieNode.mk b cs).children = cs := rfl

theorem addChars_nil (n : TrieNode) : addChars n [] = .mk true n.children := rfl

theorem addChars_cons_some {n child : TrieNode} {c : Char} (cs : List Char)
    (h : n.find? c = some child) :
    addChars n (c :: cs) = .mk n.term (updateAssoc n.children c (addChars child cs)) := by
  simp only [addChars, h]

theorem addChars_cons_none {n : TrieNode} {c : Char} (cs : List Char)
    (h : n.find? c = none) :
    addChars n (c :: cs) = .mk n.term (n.children ++ [(c, addChars (.mk false []) cs)]) := by
  simp only [addChars, h]

/-! ### Idempotence of insertion (C7) -/

theorem addChars_addChars : ∀ (w : List Char) (n : TrieNode),
    addChars (addChars n w) w = addChars n w := by
  intro w
  induction w with
  | nil => intro n; rfl
  | cons c cs ih =>
      intro n
      cases h : n.find? c with
      | some child =>
          rw [addChars_cons_some cs h]
          have h1 : (TrieNode.mk n.term (updateAssoc n.children c (addChars child cs))).find? c
              = some (addChars child cs) := by
            simp only [TrieNode.find?, TrieNode.children_mk]
            exact lookupChild_updateAssoc_self h
          rw [addChars_cons_some cs h1]
          simp only [TrieNode.term_mk, TrieNode.children_mk]
          rw [ih, updateAssoc_updateAssoc, ← addChars_cons_some cs h]
      | none =>
          rw [addChars_cons_none cs h]
          have h1 : (TrieNode.mk n.term (n.children ++ [(c, addChars (.mk false []) cs)])).find? c
              = some (addChars (.mk false []) cs) := by
            simp only [TrieNode.find?, TrieNode.children_mk]
            rw [lookupChild_append_of_none h]
            simp [lookupChild]
          rw [addChars_cons_some cs h1]
          simp only [TrieNode.term_mk, TrieNode.children_mk]
          rw [ih, updateAssoc_self]
          rw [lookupChild_append_of_none h]
          simp [lookupChild]

/-- C7: inserting the same word twice (or `k + 1` times) yields a trie state
— node tree and token set — identical to inserting it once, and hence the
same `split` output on every text. -/
theorem claim7_add_idempotent (t : Trie) (w : List Char) (k : Nat) (text : List Char) :
    Trie.add (Trie.add t w) w = Trie.add t w ∧
    (fun s => Trie.add s w)^[k + 1] t = Trie.add t w ∧
    Trie.split (Trie.add (Trie.add t w) w) text = Trie.split (Trie.add t w) text := by
  have base : ∀ s : Trie, Trie.add (Trie.add s w) w = Trie.add s w := by
    intro s
    by_cases hw : w = []
    · simp [Trie.add, hw]
    · simp only [Trie.add, if_neg hw]
      exact congrArg₂ Trie.mk (addChars_addChars w s.data) (Finset.insert_idem w s.tokens)
  refine ⟨base t, ?_, by rw [base t]⟩
  induction k with
  | zero => simp
  | succ k ih =>
      rw [Function.iterate_succ_apply', ih]
      exact base t

/-! ### `split` is side-effect-free on the trie (C9)

The method reads `self.data` (and calls `self.cut_text`, which reads nothing
from `self`) but never assigns any attribute; the state-passing embedding
threads the object through every loop iteration and returns it. -/

def runSplitSt (t : Trie) (text : List Char) : Nat → List Char → SState × Trie → SState × Trie
  | _, [], stp => stp
  | i, c :: rest, stp => runSplitSt t text (i + 1) rest (charStep stp.2.data text stp.1 i c, stp.2)

def Trie.splitSt (t : Trie) (text : List Char) : Except Unit (List (List Char)) × Trie :=
  let p := runSplitSt t text 0 text (⟨[], [0], 0⟩, t)
  (Trie.cut_text text (endStates text.length p.1.states p.1.offsets), p.2)

theorem runSplitSt_eq (t : Trie) (text : List Char) :
    ∀ (cursor : List Char) (i : Nat) (st : SState),
      runSplitSt t text i cursor (st, t) = (runSplit t.data text i cursor st, t) := by
  intro cursor
  induction cursor with
  | nil => intro i st; rfl
  | cons c rest ih => intro i st; exact ih (i + 1) (charStep t.data text st i c)

/-- C9: `split` leaves the trie unchanged — the state-passing run returns the
trie it was given, and its answer is the plain `split` result, so repeated
calls are independent and side-effect-free on the `Trie`. -/
theorem claim9_split_pure (t : Trie) (text : List Char) :
    (Trie.splitSt t text).2 = t ∧ (Trie.splitSt t text).1 = Trie.split t text := by
  unfold Trie.splitSt Trie.split splitLoop
  rw [runSplitSt_eq t text text 0 ⟨[], [0], 0⟩]
  exact ⟨rfl, rfl⟩

/-- C2: with vocabulary `extra_id_1`, `extra_id_100`, splitting
`"a extra_id_100 b"` yields exactly `["a ", "extra_id_100", " b"]`; in
particular no fragment `"extra_id_1"` (with `"00 b"` trailing) is produced. -/
theorem claim2_longest_match_example :
    Trie.split (buildTrie ["extra_id_1".toList, "extra_id_100".toList]) "a extra_id_100 b".toList
      = Except.ok ["a ".toList, "extra_id_100".toList, " b".toList] ∧
    "extra_id_1".toList ∉ ["a ".toList, "extra_id_100".toList, " b".toList] := by
  exact ⟨by rfl, by decide⟩

/-- C5 (code bug): on an inverted span the anomaly branch of `cut_text` is
reached, but `logger` is an undefined name in the module, so the call raises
`NameError` instead of recording the anomaly and continuing: the embedded
run aborts with an error rather than returning a best-effort list. -/
theorem claim5_cut_text_raises :
    Trie.cut_text "ab".toList [1, 0] = Except.error () := by rfl

/-! ### Walking the node tree (C8) -/

/-- Walk the tree by the characters of a word; `none` when the word departs
from the trie. -/
def TrieNode.walk? : TrieNode → List Char → Option TrieNode
  | t, [] => some t
  | t, c :: cs =>
      match t.find? c with
      | none => none
      | some t' => t'.walk? cs

/-- "Walking the node tree from the root along the characters of `w` ends at
a node bearing the termination marker." -/
def memWalk (t : TrieNode) (w : List Char) : Bool :=
  match t.walk? w with
  | some n => n.term
  | none => false

theorem memWalk_nil (t : TrieNode) : memWalk t [] = t.term := rfl

theorem memWalk_cons_none {t : TrieNode} {c : Char} (w : List Char) (h : t.find? c = none) :
    memWalk t (c :: w) = false := by
  simp [memWalk, TrieNode.walk?, h]

theorem memWalk_cons_some {t t' : TrieNode} {c : Char} (w : List Char) (h : t.find? c = some t') :
    memWalk t (c :: w) = memWalk t' w := by
  simp [memWalk, TrieNode.walk?, h]

theorem memWalk_leaf (b : Bool) (w : List Char) : memWalk (.mk b []) w = (b && decide (w = [])) := by
  cases w with
  | nil => simp [memWalk_nil]
  | cons c ws =>
      rw [memWalk_cons_none ws (by simp [TrieNode.find?, lookupChild])]
      simp

theorem lookupChild_updateAssoc_ne {l : List (Char × TrieNode)} {c d : Char} {v : TrieNode}
    (h : d ≠ c) : lookupChild (updateAssoc l c v) d = lookupChild l d := by
  induction l with
  | nil => simp [updateAssoc]
  | cons p rest ih =>
      obtain ⟨c', t'⟩ := p
      by_cases hc : c' = c
      · subst hc
        simp [updateAssoc, lookupChild, fun hh => h (Eq.symm hh), Ne.symm h]
      · simp [updateAssoc, hc, lookupChild, ih]

theorem mem_addChars : ∀ (v : List Char) (n : TrieNode) (w : List Char),
    memWalk (addChars n v) w = true ↔ (memWalk n w = true ∨ w = v) := by
  intro v
  induction v with
  | nil =>
      intro n w
      cases w with
      | nil => simp [addChars_nil, memWalk_nil]
      | cons d ws =>
          rw [addChars_nil]
          cases h : n.find? d with
          | none =>
              have h' : (TrieNode.mk true n.children).find? d = none := h
              rw [memWalk_cons_none ws h, memWalk_cons_none ws h']
              simp
          | some t' =>
              have h' : (TrieNode.mk true n.children).find? d = some t' := h
              rw [memWalk_cons_some ws h, memWalk_cons_some ws h']
              simp
  | cons c cs ih =>
      intro n w
      cases w with
      | nil =>
          have hterm : (addChars n (c :: cs)).term = n.term := by
            cases h : n.find? c with
            | some child => rw [addChars_cons_some cs h]; rfl
            | none => rw [addChars_cons_none cs h]; rfl
          simp [memWalk_nil, hterm]
      | cons d ws =>
          by_cases hd : d = c
          · subst hd
            cases h : n.find? d with
            | some child =>
                have h1 : (addChars n (d :: cs)).find? d = some (addChars child cs) := by
                  rw [addChars_cons_some cs h]
                  exact lookupChild_updateAssoc_self h
                rw [memWalk_cons_some ws h1, memWalk_cons_some ws h, ih child ws]
                simp
            | none =>
                have h1 : (addChars n (d :: cs)).find? d = some (addChars (.mk false []) cs) := by
                  rw [addChars_cons_none cs h]
                  show lookupChild (n.children ++ [(d, addChars (.mk false []) cs)]) d = _
                  rw [lookupChild_append_of_none h]
                  simp [lookupChild]
                rw [memWalk_cons_some ws h1, memWalk_cons_none ws h, ih (.mk false []) ws]
                simp [memWalk_leaf]
          · have hsame : (addChars n (c :: cs)).find? d = n.find? d := by
              cases h : n.find? c with
              | some child =>
                  rw [addChars_cons_some cs h]
                  exact lookupChild_updateAssoc_ne hd
              | none =>
                  rw [addChars_cons_none cs h]
                  show lookupChild (n.children ++ [(c, addChars (.mk false []) cs)]) d = _
                  cases h2 : n.find? d with
                  | some v => exact lookupChild_append_of_some h2
                  | none =>
                      rw [lookupChild_append_of_none h2]
                      have hcd : ¬ c = d := fun hh => hd (Eq.symm hh)
                      simp [lookupChild, hcd]
            cases h2 : n.find? d with
            | some t' =>
                rw [memWalk_cons_some ws (hsame.trans h2), memWalk_cons_some ws h2]
                simp [hd]
            | none =>
                rw [memWalk_cons_none ws (hsame.trans h2), memWalk_cons_none ws h2]
                simp [hd]

/-- The token set and the node tree agree. -/
def agrees (t : Trie) : Prop :=
  ∀ w, w ∈ t.tokens ↔ memWalk t.data w = true

theorem agrees_add {t : Trie} (h : agrees t) (v : List Char) : agrees (t.add v) := by
  by_cases hv : v = []
  · simpa [Trie.add, hv] using h
  · intro w
    simp only [Trie.add, if_neg hv, Finset.mem_insert]
    rw [mem_addChars v t.data w, ← h w]
    tauto

theorem agrees_foldl : ∀ (ws : List (List Char)) (t : Trie), agrees t →
    agrees (ws.foldl Trie.add t) := by
  intro ws
  induction ws with
  | nil => intro t h; exact h
  | cons v rest ih => intro t h; exact ih (t.add v) (agrees_add h v)

theorem agrees_buildTrie (ws : List (List Char)) : agrees (buildTrie ws) := by
  refine agrees_foldl ws Trie.new ?_
  intro w
  simp [Trie.new, memWalk_leaf]

/-- C8: after any sequence of construction and `add` operations (a fold of
`add` over the inserted words), a word is in the token set iff walking the
node tree along its characters ends at a node bearing the termination
marker. -/
theorem claim8_tokens_tree_agree (ws : List (List Char)) (w : List Char) :
    w ∈ (buildTrie ws).tokens ↔ memWalk (buildTrie ws).data w = true :=
  agrees_buildTrie ws w

/-! ### `ExtensionsTrie.extensions` (C3) -/

/-- Well-formedness of a node tree as built by insertion: at every node the
children's keys are distinct (Python dict keys are unique). -/
inductive WF : TrieNode → Prop where
  | mk : ∀ (b : Bool) (cs : List (Char × TrieNode)),
      (cs.map Prod.fst).Nodup → (∀ p ∈ cs, WF p.2) → WF (.mk b cs)

theorem WF.nodupKeys : ∀ {t : TrieNode}, WF t → (t.children.map Prod.fst).Nodup := by
  intro t h
  cases h with
  | mk b cs hn hc => exact hn

theorem WF.child : ∀ {t : TrieNode}, WF t → ∀ p ∈ t.children, WF p.2 := by
  intro t h
  cases h with
  | mk b cs hn hc => exact hc

theorem lookupChild_eq_none {l : List (Char × TrieNode)} {c : Char} :
    lookupChild l c = none ↔ c ∉ l.map Prod.fst := by
  induction l with
  | nil => simp [lookupChild]
  | cons p rest ih =>
      obtain ⟨c', t'⟩ := p
      by_cases hc : c' = c
      · subst hc
        simp [lookupChild]
      · rw [List.map_cons, List.mem_cons]
        simp only [lookupChild, if_neg hc]
        rw [ih]
        constructor
        · intro h hmem
          rcases hmem with h1 | h1
          · exact hc h1.symm
          · exact h h1
        · intro h hmem
          exact h (Or.inr hmem)

theorem lookupChild_mem {l : List (Char × TrieNode)} {c : Char} {v : TrieNode}
    (h : lookupChild l c = some v) : (c, v) ∈ l := by
  induction l with
  | nil => simp [lookupChild] at h
  | cons p rest ih =>
      obtain ⟨c', t'⟩ := p
      by_cases hc : c' = c
      · subst hc
        simp [lookupChild] at h
        simp [h]
      · simp [lookupChild, hc] at h
        exact List.mem_cons_of_mem _ (ih h)

theorem lookupChild_of_mem {l : List (Char × TrieNode)} {c : Char} {v : TrieNode}
    (hnd : (l.map Prod.fst).Nodup) (h : (c, v) ∈ l) : lookupChild l c = some v := by
  induction l with
  | nil => simp at h
  | cons p rest ih =>
      obtain ⟨c', t'⟩ := p
      simp only [List.map_cons, List.nodup_cons] at hnd
      rcases List.mem_cons.mp h with h1 | h1
      · rcases h1 with ⟨rfl, rfl⟩
        simp [lookupChild]
      · have hc : c' ≠ c := by
          rintro rfl
          exact hnd.1 (List.mem_map_of_mem Prod.fst h1)
        simp only [lookupChild, if_neg hc]
        exact ih hnd.2 h1

theorem updateAssoc_keys (l : List (Char × TrieNode)) (c : Char) (v : TrieNode) :
    (updateAssoc l c v).map Prod.fst = l.map Prod.fst := by
  induction l with
  | nil => simp [updateAssoc]
  | cons p rest ih =>
      obtain ⟨c', t'⟩ := p
      by_cases hc : c' = c
      · subst hc
        simp [updateAssoc]
      · simp [updateAssoc, hc, ih]

theorem mem_updateAssoc {l : List (Char × TrieNode)} {c : Char} {v : TrieNode} {p : Char × TrieNode}
    (h : p ∈ updateAssoc l c v) : p ∈ l ∨ p = (c, v) := by
  induction l with
  | nil => simp [updateAssoc] at h
  | cons q rest ih =>
      obtain ⟨c', t'⟩ := q
      by_cases hc : c' = c
      · subst hc
        simp only [updateAssoc, if_pos rfl] at h
        rcases List.mem_cons.mp h with h1 | h1
        · exact Or.inr h1
        · exact Or.inl (List.mem_cons_of_mem _ h1)
      · simp only [updateAssoc, if_neg hc] at h
        rcases List.mem_cons.mp h with h1 | h1
        · exact Or.inl (h1 ▸ List.mem_cons_self _ _)
        · rcases ih h1 with h2 | h2
          · exact Or.inl (List.mem_cons_of_mem _ h2)
          · exact Or.inr h2

theorem WF_addChars : ∀ (v : List Char) {n : TrieNode}, WF n → WF (addChars n v) := by
  intro v
  induction v with
  | nil =>
      intro n hn
      rw [addChars_nil]
      cases hn with
      | mk b cs hnd hc => exact WF.mk true cs hnd hc
  | cons c cs ih =>
      intro n hn
      cases h : n.find? c with
      | some child =>
          rw [addChars_cons_some cs h]
          refine WF.mk _ _ ?_ ?_
          · rw [updateAssoc_keys]
            exact hn.nodupKeys
          · intro p hp
            rcases mem_updateAssoc hp with h1 | h1
            · exact hn.child p h1
            · subst h1
              exact ih (hn.child _ (lookupChild_mem h))
      | none =>
          rw [addChars_cons_none cs h]
          refine WF.mk _ _ ?_ ?_
          · rw [List.map_append]
            simp only [List.map_cons, List.map_nil]
            rw [List.nodup_append]
            refine ⟨hn.nodupKeys, List.nodup_singleton c, ?_⟩
            intro a ha hb
            simp at hb
            subst hb
            exact (lookupChild_eq_none.mp h) ha
          · intro p hp
            rcases List.mem_append.mp hp with h1 | h1
            · exact hn.child p h1
            · simp at h1
              subst h1
              exact ih (WF.mk false [] (by simp) (by simp))

theorem WF_buildTrie (ws : List (List Char)) : WF (buildTrie ws).data := by
  have step : ∀ (l : List (List Char)) (t : Trie), WF t.data → WF (l.foldl Trie.add t).data := by
    intro l
    induction l with
    | nil => intro t h; exact h
    | cons v rest ih =>
        intro t h
        refine ih (t.add v) ?_
        by_cases hv : v = []
        · simpa [Trie.add, hv] using h
        · simp only [Trie.add, if_neg hv]
          exact WF_addChars v h
  exact step ws Trie.new (WF.mk false [] (by simp) (by simp))

theorem mem_collectChildren : ∀ (cs : List (Char × TrieNode)) (s : List Char),
    s ∈ collectChildren cs ↔ ∃ c t' s', (c, t') ∈ cs ∧ s = c :: s' ∧ s' ∈ collectTokens t' := by
  intro cs
  induction cs with
  | nil => simp [collectChildren]
  | cons p rest ih =>
      obtain ⟨c, t'⟩ := p
      intro s
      simp only [collectChildren, List.mem_append, List.mem_map, ih]
      constructor
      · rintro (⟨s', hs', rfl⟩ | ⟨d, u, s', hmem, rfl, hs'⟩)
        · exact ⟨c, t', s', List.mem_cons_self _ _, rfl, hs'⟩
        · exact ⟨d, u, s', List.mem_cons_of_mem _ hmem, rfl, hs'⟩
      · rintro ⟨d, u, s', hmem, rfl, hs'⟩
        rcases List.mem_cons.mp hmem with h1 | h1
        · rcases h1 with ⟨rfl, rfl⟩
          exact Or.inl ⟨s', hs', rfl⟩
        · exact Or.inr ⟨d, u, s', h1, rfl, hs'⟩

theorem mem_collectTokens : ∀ (s : List Char) {t : TrieNode}, WF t →
    (s ∈ collectTokens t ↔ memWalk t s = true) := by
  intro s
  induction s with
  | nil =>
      intro t hw
      obtain ⟨b, cs⟩ := t
      simp only [collectTokens, List.mem_append, mem_collectChildren, memWalk_nil,
        TrieNode.term_mk]
      constructor
      · rintro (h1 | ⟨c, t', s', _, h2, _⟩)
        · by_contra hb
          simp [Bool.not_eq_true] at hb
          simp [hb] at h1
        · exact absurd h2 (by simp)
      · intro hb
        simp [hb]
  | cons c s' ih =>
      intro t hw
      obtain ⟨b, cs⟩ := t
      simp only [collectTokens, List.mem_append, mem_collectChildren]
      constructor
      · rintro (h1 | ⟨d, t', s'', hmem, heq, hs⟩)
        · by_cases hb : b = true
          · simp [hb] at h1
          · simp [hb] at h1
        · obtain ⟨rfl, rfl⟩ : c = d ∧ s' = s'' := by
            have h2 := List.cons.inj heq
            exact ⟨h2.1, h2.2⟩
          have hfind : TrieNode.find? (.mk b cs) c = some t' :=
            lookupChild_of_mem hw.nodupKeys hmem
          rw [memWalk_cons_some s' hfind]
          exact (ih (hw.child _ hmem)).mp hs
      · intro hm
        cases hfind : TrieNode.find? (.mk b cs) c with
        | none => rw [memWalk_cons_none s' hfind] at hm; exact absurd hm (by simp)
        | some t' =>
            rw [memWalk_cons_some s' hfind] at hm
            have hmem : (c, t') ∈ cs := lookupChild_mem hfind
            exact Or.inr ⟨c, t', s', hmem, rfl, (ih (hw.child _ hmem)).mpr hm⟩

theorem walk?_append : ∀ (a : List Char) (t : TrieNode) (b : List Char),
    t.walk? (a ++ b) = (t.walk? a).bind (fun x => x.walk? b) := by
  intro a
  induction a with
  | nil => intro t b; rfl
  | cons c cs ih =>
      intro t b
      simp only [List.cons_append, TrieNode.walk?]
      cases t.find? c with
      | none => rfl
      | some t' => exact ih t' b

theorem WF_walk : ∀ (a : List Char) {t n : TrieNode}, WF t → t.walk? a = some n → WF n := by
  intro a
  induction a with
  | nil =>
      intro t n hw h
      simp [TrieNode.walk?] at h
      exact h ▸ hw
  | cons c cs ih =>
      intro t n hw h
      simp only [TrieNode.walk?] at h
      cases hf : t.find? c with
      | none => rw [hf] at h; exact absurd h (by simp)
      | some t' =>
          rw [hf] at h
          exact ih (hw.child _ (lookupChild_mem hf)) h

theorem getNode_of_walk : ∀ (a : List Char) {t n : TrieNode},
    t.walk? a = some n → ExtensionsTrie.getNode t a = n := by
  intro a
  induction a with
  | nil =>
      intro t n h
      simp [TrieNode.walk?] at h
      simp [ExtensionsTrie.getNode, h]
  | cons c cs ih =>
      intro t n h
      simp only [TrieNode.walk?] at h
      cases hf : t.find? c with
      | none => rw [hf] at h; exact absurd h (by simp)
      | some t' =>
          rw [hf] at h
          simp only [ExtensionsTrie.getNode, hf]
          exact ih h

/-- C3 counterexample: with vocabulary `{"apple"}` and the departing prefix
`"ax"`, `extensions` returns `"axpple"`, a string that is not an inserted
vocabulary word at all — so the output is not the set of vocabulary words
starting with the prefix. -/
theorem claim3_departing_prefix_cex :
    "axpple".toList ∈ ExtensionsTrie.extensions (buildTrie ["apple".toList]) "ax".toList ∧
    "axpple".toList ∉ (buildTrie ["apple".toList]).tokens := by
  constructor
  · decide
  · decide

/-- C3 (amended): when the prefix does not depart from the trie (the walk
along its characters succeeds), `extensions(prefix)` returns, as a set,
exactly the inserted vocabulary words starting with the prefix, each
including the prefix itself. -/
theorem claim3_extensions_exact (ws : List (List Char)) (pre : List Char)
    (h : ((buildTrie ws).data.walk? pre).isSome = true) (w : List Char) :
    w ∈ ExtensionsTrie.extensions (buildTrie ws) pre ↔
      (pre.isPrefixOf w = true ∧ w ∈ (buildTrie ws).tokens) := by
  obtain ⟨node, hnode⟩ := Option.isSome_iff_exists.mp h
  have hw : WF (buildTrie ws).data := WF_buildTrie ws
  have hwn : WF node := WF_walk pre hw hnode
  unfold ExtensionsTrie.extensions
  rw [getNode_of_walk pre hnode]
  constructor
  · intro hmem
    obtain ⟨s, hs, rfl⟩ := List.mem_map.mp hmem
    have hmw : memWalk node s = true := (mem_collectTokens s hwn).mp hs
    refine ⟨?_, ?_⟩
    · exact List.isPrefixOf_iff_prefix.mpr (List.prefix_append pre s)
    · refine (agrees_buildTrie ws (pre ++ s)).mpr ?_
      unfold memWalk
      rw [walk?_append, hnode]
      unfold memWalk at hmw
      exact hmw
  · rintro ⟨hpre, htok⟩
    obtain ⟨s, rfl⟩ := List.isPrefixOf_iff_prefix.mp hpre
    have hmw : memWalk (buildTrie ws).data (pre ++ s) = true := (agrees_buildTrie ws _).mp htok
    refine List.mem_map.mpr ⟨s, ?_, rfl⟩
    refine (mem_collectTokens s hwn).mpr ?_
    unfold memWalk at hmw ⊢
    rw [walk?_append, hnode] at hmw
    exact hmw

/-- Concrete instance of the amended C3: the spec's own example vocabulary. -/
theorem claim3_extensions_exact_witness :
    ((buildTrie ["app".toList, "apple".toList, "application".toList]).data.walk?
        "app".toList).isSome = true ∧
    ("apple".toList ∈ ExtensionsTrie.extensions
        (buildTrie ["app".toList, "apple".toList, "application".toList]) "app".toList ↔
      ("app".toList.isPrefixOf "apple".toList = true ∧
        "apple".toList ∈ (buildTrie ["app".toList, "apple".toList, "application".toList]).tokens)) :=
  ⟨by decide, claim3_extensions_exact _ _ (by decide) _⟩

/-! ### `_insert_one_token_to_ordered_list` (C10) -/

theorem sorted_getD_mono {α : Type} [LinearOrder α] {L : List α} (hs : List.Sorted (· < ·) L)
    (x : α) : ∀ i j : Nat, i ≤ j → j < L.length → L.getD i x ≤ L.getD j x := by
  intro i j hij hj
  have hi : i < L.length := Nat.lt_of_le_of_lt hij hj
  rw [List.getD_eq_getElem L x hi, List.getD_eq_getElem L x hj]
  rcases Nat.eq_or_lt_of_le hij with h | h
  · cases h
    exact le_refl _
  · exact le_of_lt (List.pairwise_iff_getElem.mp hs i j hi hj h)

theorem bisectLeftAux_spec {α : Type} [LinearOrder α] (a : List α) (x : α)
    (hmono : ∀ i j : Nat, i ≤ j → j < a.length → a.getD i x ≤ a.getD j x) :
    ∀ (fuel lo hi : Nat), lo ≤ hi → hi ≤ a.length → hi - lo ≤ fuel →
      (∀ i, i < lo → a.getD i x < x) →
      (∀ i, hi ≤ i → i < a.length → ¬ a.getD i x < x) →
      lo ≤ bisectLeftAux a x fuel lo hi ∧ bisectLeftAux a x fuel lo hi ≤ hi ∧
      (∀ i, i < bisectLeftAux a x fuel lo hi → a.getD i x < x) ∧
      (∀ i, bisectLeftAux a x fuel lo hi ≤ i → i < a.length → ¬ a.getD i x < x) := by
  intro fuel
  induction fuel with
  | zero =>
      intro lo hi h1 h2 h3 Hlo Hhi
      have hle : hi = lo := by omega
      subst hle
      exact ⟨le_refl _, le_refl _, Hlo, Hhi⟩
  | succ fuel ih =>
      intro lo hi h1 h2 h3 Hlo Hhi
      by_cases hlt : lo < hi
      · simp only [bisectLeftAux, if_pos hlt]
        by_cases hx : a.getD ((lo + hi) / 2) x < x
        · simp only [if_pos hx]
          have Hlo' : ∀ i, i < (lo + hi) / 2 + 1 → a.getD i x < x := by
            intro i hi2
            have hile : i ≤ (lo + hi) / 2 := by omega
            exact lt_of_le_of_lt (hmono i ((lo + hi) / 2) hile (by omega)) hx
          obtain ⟨ha, hb, hc, hd⟩ := ih ((lo + hi) / 2 + 1) hi (by omega) h2 (by omega) Hlo' Hhi
          exact ⟨by omega, hb, hc, hd⟩
        · simp only [if_neg hx]
          have Hhi' : ∀ i, (lo + hi) / 2 ≤ i → i < a.length → ¬ a.getD i x < x := by
            intro i hi2 hilen hcon
            exact hx (lt_of_le_of_lt (hmono ((lo + hi) / 2) i hi2 hilen) hcon)
          obtain ⟨ha, hb, hc, hd⟩ := ih lo ((lo + hi) / 2) (by omega) (by omega) (by omega) Hlo Hhi'
          exact ⟨ha, by omega, hc, hd⟩
      · simp only [bisectLeftAux, if_neg hlt]
        have hle : hi = lo := by omega
        subst hle
        exact ⟨le_refl _, le_refl _, Hlo, Hhi⟩

theorem bisect_left_spec {α : Type} [LinearOrder α] (a : List α) (x : α)
    (hs : List.Sorted (· < ·) a) :
    bisect_left a x ≤ a.length ∧
    (∀ i, i < bisect_left a x → a.getD i x < x) ∧
    (∀ i, bisect_left a x ≤ i → i < a.length → ¬ a.getD i x < x) := by
  have h := bisectLeftAux_spec a x (sorted_getD_mono hs x) a.length 0 a.length
    (Nat.zero_le _) (le_refl _) (by omega) (by intro i hi; omega) (by intro i hi hlen; omega)
  exact ⟨h.2.1, h.2.2⟩

/-- C10: on a sorted duplicate-free list, inserting an already-present token
is a no-op; inserting an absent token yields a sorted duplicate-free list
that is the old list plus the token (inserted at the binary-search
point). -/
theorem claim10_insert_unique_sorted {α : Type} [LinearOrder α] (L : List α) (tk : α)
    (hs : List.Sorted (· < ·) L) :
    (tk ∈ L → insert_one_token_to_ordered_list L tk = L) ∧
    (tk ∉ L → List.Sorted (· < ·) (insert_one_token_to_ordered_list L tk) ∧
      (insert_one_token_to_ordered_list L tk).Perm (tk :: L)) := by
  obtain ⟨hrle, Hlt, Hge⟩ := bisect_left_spec L tk hs
  constructor
  · intro hmem
    obtain ⟨j, hj, hjv⟩ := List.getElem_of_mem hmem
    have hjd : L.getD j tk = tk := by rw [List.getD_eq_getElem L tk hj, hjv]
    have hrj : bisect_left L tk ≤ j := by
      by_contra hcon
      exact absurd hjd (ne_of_lt (Hlt j (by omega)))
    have hrlen : bisect_left L tk < L.length := Nat.lt_of_le_of_lt hrj hj
    have hrv : L[bisect_left L tk] = tk := by
      rcases Nat.eq_or_lt_of_le hrj with h | h
      · subst h
        exact hjv
      · exfalso
        refine Hge (bisect_left L tk) (le_refl _) hrlen ?_
        rw [List.getD_eq_getElem L tk hrlen]
        calc L[bisect_left L tk] < L[j] := List.pairwise_iff_getElem.mp hs _ j hrlen hj h
          _ = tk := hjv
    unfold insert_one_token_to_ordered_list
    rw [if_pos]
    exact ⟨hrlen, by rw [List.get?_eq_get hrlen, List.get_eq_getElem, hrv]⟩
  · intro hmem
    have hcond : ¬ (bisect_left L tk < L.length ∧ L.get? (bisect_left L tk) = some tk) := by
      rintro ⟨hlen, hget⟩
      rw [List.get?_eq_get hlen, List.get_eq_getElem] at hget
      have : tk ∈ L := by
        rw [← Option.some_inj.mp hget]
        exact List.getElem_mem hlen
      exact hmem this
    unfold insert_one_token_to_ordered_list
    rw [if_neg hcond]
    unfold listInsertAt
    have htake : ∀ y ∈ L.take (bisect_left L tk), y < tk := by
      intro y hy
      obtain ⟨i, hi, hiv⟩ := List.getElem_of_mem hy
      have hir : i < bisect_left L tk := by
        have := List.length_take (bisect_left L tk) L ▸ hi
        omega
      have hilen : i < L.length := by
        have := List.length_take (bisect_left L tk) L ▸ hi
        omega
      rw [List.getElem_take L] at hiv
      have := Hlt i hir
      rw [List.getD_eq_getElem L tk hilen, hiv] at this
      exact this
    have hdrop : ∀ y ∈ L.drop (bisect_left L tk), tk < y := by
      intro y hy
      obtain ⟨i, hi, hiv⟩ := List.getElem_of_mem hy
      have hilen : bisect_left L tk + i < L.length := by
        have := List.length_drop (bisect_left L tk) L ▸ hi
        omega
      rw [List.getElem_drop L] at hiv
      have hge := Hge (bisect_left L tk + i) (by omega) hilen
      rw [List.getD_eq_getElem L tk hilen, hiv] at hge
      have hne : tk ≠ y := by
        rintro rfl
        exact hmem (hiv ▸ List.getElem_mem hilen)
      exact lt_of_le_of_ne (not_lt.mp hge) hne
    refine ⟨?_, ?_⟩
    · refine List.pairwise_append.mpr ⟨List.Pairwise.sublist (List.take_sublist _ _) hs, ?_, ?_⟩
      · exact List.pairwise_cons.mpr ⟨hdrop, List.Pairwise.sublist (List.drop_sublist _ _) hs⟩
      · intro a ha b hb
        rcases List.mem_cons.mp hb with rfl | hb2
        · exact htake a ha
        · exact lt_trans (htake a ha) (hdrop b hb2)
    · refine List.Perm.trans List.perm_middle ?_
      rw [List.take_append_drop]

/-- Concrete instances of C10: inserting an absent token (2) and a present
token (3) into the sorted list [1, 3]. -/
theorem claim10_insert_unique_sorted_witness :
    List.Sorted (· < ·) ([1, 3] : List Nat) ∧
    ((2 ∈ ([1, 3] : List Nat) → insert_one_token_to_ordered_list ([1, 3] : List Nat) 2 = [1, 3]) ∧
      (2 ∉ ([1, 3] : List Nat) →
        List.Sorted (· < ·) (insert_one_token_to_ordered_list ([1, 3] : List Nat) 2) ∧
        (insert_one_token_to_ordered_list ([1, 3] : List Nat) 2).Perm (2 :: [1, 3]))) ∧
    ((3 ∈ ([1, 3] : List Nat) → insert_one_token_to_ordered_list ([1, 3] : List Nat) 3 = [1, 3]) ∧
      (3 ∉ ([1, 3] : List Nat) →
        List.Sorted (· < ·) (insert_one_token_to_ordered_list ([1, 3] : List Nat) 3) ∧
        (insert_one_token_to_ordered_list ([1, 3] : List Nat) 3).Perm (3 :: [1, 3]))) :=
  ⟨by decide, claim10_insert_unique_sorted [1, 3] 2 (by decide),
    claim10_insert_unique_sorted [1, 3] 3 (by decide)⟩

/-! ### `cut_text` on monotone offsets (towards C1 and C4) -/

theorem mem_of_getLastOpt {l : List Nat} {x : Nat} (h : x ∈ l.getLast?) : x ∈ l := by
  obtain ⟨hne, rfl⟩ := List.mem_getLast?_eq_getLast h
  exact List.getLast_mem hne

theorem getLastD_of_getLastOpt {l : List Nat} {x : Nat} (h : x ∈ l.getLast?) :
    l.getLastD 0 = x := by
  rw [List.getLastD_eq_getLast?, Option.mem_def.mp h]
  rfl

theorem sliceTxt_append {text : List Char} {s m e : Nat} (h1 : s ≤ m) (h2 : m ≤ e) :
    sliceTxt text s m ++ sliceTxt text m e = sliceTxt text s e := by
  unfold sliceTxt
  have hd : text.drop m = (text.drop s).drop (m - s) := by
    rw [List.drop_drop]
    congr 1
    omega
  rw [hd, ← List.take_add]
  congr 1
  omega

theorem chain'_le_getLastD : ∀ (offs : List Nat) (e : Nat),
    List.Chain' (· ≤ ·) (e :: offs) → e ≤ offs.getLastD e := by
  intro offs
  induction offs with
  | nil => intro e _; exact le_refl e
  | cons f rest ih =>
      intro e h
      rcases List.chain'_cons.mp h with ⟨hef, h2⟩
      rw [List.getLastD_cons]
      exact le_trans hef (ih f h2)

theorem cutLoop_ok_flatten (text : List Char) :
    ∀ (offs : List Nat) (s : Nat) (toks : List (List Char)),
      List.Chain' (· ≤ ·) (s :: offs) →
      ∃ toks', cutLoop text offs s toks = Except.ok toks' ∧
        toks'.flatten = toks.flatten ++ sliceTxt text s (offs.getLastD s) := by
  intro offs
  induction offs with
  | nil =>
      intro s toks _
      refine ⟨toks, rfl, ?_⟩
      simp [sliceTxt]
  | cons e rest ih =>
      intro s toks h
      rcases List.chain'_cons.mp h with ⟨hse, h2⟩
      by_cases heq : s = e
      · subst heq
        simp only [cutLoop, if_neg (lt_irrefl s), if_pos rfl]
        obtain ⟨toks', ha, hb⟩ := ih s toks h2
        refine ⟨toks', ha, ?_⟩
        rw [hb, List.getLastD_cons]
      · have hlt : s < e := lt_of_le_of_ne hse heq
        simp only [cutLoop, if_neg (by omega : ¬ s > e), if_neg heq]
        obtain ⟨toks', ha, hb⟩ := ih e (toks ++ [sliceTxt text s e]) h2
        refine ⟨toks', ha, ?_⟩
        rw [hb, List.getLastD_cons, List.flatten_append]
        have hel : e ≤ rest.getLastD e := chain'_le_getLastD rest e h2
        rw [List.append_assoc]
        congr 1
        have hfl : [sliceTxt text s e].flatten = sliceTxt text s e := by simp
        rw [hfl]
        exact sliceTxt_append hse hel

theorem cut_text_ok (text : List Char) (offsets : List Nat)
    (hch : List.Chain' (· ≤ ·) offsets) (hle : ∀ x ∈ offsets, x ≤ text.length) :
    ∃ toks, Trie.cut_text text offsets = Except.ok toks ∧ toks.flatten = text := by
  unfold Trie.cut_text
  have hch2 : List.Chain' (· ≤ ·) (0 :: (offsets ++ [text.length])) := by
    refine List.chain'_cons'.mpr ⟨fun y _ => Nat.zero_le y, ?_⟩
    refine List.chain'_append.mpr ⟨hch, List.chain'_singleton _, ?_⟩
    intro x hx y hy
    simp only [List.head?_cons, Option.mem_def, Option.some.injEq] at hy
    subst hy
    exact hle x (mem_of_getLastOpt hx)
  obtain ⟨toks, h1, h2⟩ := cutLoop_ok_flatten text (offsets ++ [text.length]) 0 [] hch2
  refine ⟨toks, h1, ?_⟩
  rw [h2, List.getLastD_concat]
  simp [sliceTxt]

/-! ### The lookahead's result is a well-formed cut pair -/

def keysOf (l : List (Nat × TrieNode)) : List Nat := l.map Prod.fst

theorem keysOf_nil : keysOf [] = [] := rfl

theorem keysOf_cons (p : Nat × TrieNode) (l : List (Nat × TrieNode)) :
    keysOf (p :: l) = p.1 :: keysOf l := rfl

theorem keysOf_append (a b : List (Nat × TrieNode)) :
    keysOf (a ++ b) = keysOf a ++ keysOf b := List.map_append _ a b

theorem chain'_lt_head {a : Nat} {l : List Nat} (h : List.Chain' (· < ·) (a :: l)) :
    ∀ b ∈ l, a < b := by
  have hp := List.chain'_iff_pairwise.mp h
  exact (List.pairwise_cons.mp hp).1

/-- Every time `lookWhile` overwrites the accumulator it writes
`(lookstart, e, e)` for some index `e` strictly beyond `li` and within the
cursor. -/
theorem lookWhile_cases (lookstart : Nat) :
    ∀ (rest : List Char) (ptr : TrieNode) (li : Nat) (acc : Nat × Nat × Nat),
      lookWhile lookstart ptr rest li acc = acc ∨
      ∃ e, lookWhile lookstart ptr rest li acc = (lookstart, e, e) ∧
        li < e ∧ e ≤ li + rest.length := by
  intro rest
  induction rest with
  | nil => intro ptr li acc; exact Or.inl rfl
  | cons c rs ih =>
      intro ptr li acc
      cases h : ptr.find? c with
      | none =>
          left
          simp only [lookWhile, h]
      | some ptr' =>
          by_cases ht : ptr'.term = true
          · rcases ih ptr' (li + 1) (lookstart, li + 1, li + 1) with h1 | ⟨e, h1, h2, h3⟩
            · right
              refine ⟨li + 1, ?_, by omega, by simp only [List.length_cons]; omega⟩
              simp only [lookWhile, h, ht, if_pos]
              exact h1
            · right
              refine ⟨e, ?_, by omega, by simp only [List.length_cons] at h3 ⊢; omega⟩
              simp only [lookWhile, h, ht, if_pos]
              exact h1
          · rcases ih ptr' (li + 1) acc with h1 | ⟨e, h1, h2, h3⟩
            · left
              simp only [lookWhile, h, ht]
              simpa using h1
            · right
              refine ⟨e, ?_, by omega, by simp only [List.length_cons] at h3 ⊢; omega⟩
              simp only [lookWhile, h, ht]
              simpa using h1

/-- The lookahead always resolves to a pair `(start, end)` with
`skip = end`, `start` below `current` and at least `lo` (the bound on all
state keys), and `current ≤ end ≤ n`.  The two admissible situations on
entry are: (i) the entry whose termination triggered the lookahead is still
ahead in the list (its key is the current `start`), or (ii) a terminal was
already recorded (the accumulator is already such a pair) and every
remaining key is past `start`, so the loop breaks immediately. -/
theorem lookahead_good (text : List Char) (current n lo : Nat) (hn : text.length = n)
    (hcur : current < n) :
    ∀ (L : List (Nat × TrieNode)) (s e sk : Nat),
      List.Chain' (· < ·) (keysOf L) →
      (∀ k ∈ keysOf L, lo ≤ k ∧ k < current) →
      ((∃ D p0 R, L = D ++ (s, p0) :: R ∧ p0.term = true) ∨
        (lo ≤ s ∧ s < current ∧ e = sk ∧ current ≤ e ∧ e ≤ n ∧ ∀ k ∈ keysOf L, s < k)) →
      lo ≤ (lookaheadLoop text current L (s, e, sk)).1 ∧
      (lookaheadLoop text current L (s, e, sk)).1 < current ∧
      (lookaheadLoop text current L (s, e, sk)).2.1 = (lookaheadLoop text current L (s, e, sk)).2.2 ∧
      current ≤ (lookaheadLoop text current L (s, e, sk)).2.1 ∧
      (lookaheadLoop text current L (s, e, sk)).2.1 ≤ n := by
  intro L
  induction L with
  | nil =>
      intro s e sk _ _ hcase
      rcases hcase with ⟨D, p0, R, hL, _⟩ | ⟨h1, h2, h3, h4, h5, _⟩
      · exact absurd hL (by simp)
      · simp only [lookaheadLoop]
        exact ⟨h1, h2, h3, h4, h5⟩
  | cons hd L' ih =>
      obtain ⟨k, p⟩ := hd
      intro s e sk hchain hkeys hcase
      have hk := hkeys k (by simp [keysOf_cons])
      have hchain' : List.Chain' (· < ·) (keysOf L') := by
        rw [keysOf_cons] at hchain
        exact hchain.tail
      have hkeys' : ∀ k' ∈ keysOf L', lo ≤ k' ∧ k' < current := by
        intro k' hk'
        exact hkeys k' (by rw [keysOf_cons]; exact List.mem_cons_of_mem _ hk')
      have hgt : ∀ k' ∈ keysOf L', k < k' := by
        rw [keysOf_cons] at hchain
        exact chain'_lt_head hchain
      rcases hcase with ⟨D, p0, R, hL, hterm⟩ | ⟨h1, h2, h3, h4, h5, h6⟩
      · cases D with
        | nil =>
            simp only [List.nil_append] at hL
            obtain ⟨hkp, hLR⟩ := List.cons.inj hL
            have h1e : k = s := congrArg Prod.fst hkp
            have h2e : p = p0 := congrArg Prod.snd hkp
            subst h1e
            subst h2e
            have hstep : lookaheadLoop text current ((k, p) :: L') (k, e, sk)
                = lookaheadLoop text current L'
                    (lookWhile k p (text.drop current) current (k, current, current)) := by
              simp [lookaheadLoop, hterm]
            rw [hstep]
            rcases lookWhile_cases k (text.drop current) p current
                (k, current, current) with hw | ⟨e', hw, hlt', hle'⟩
            · rw [hw]
              refine ih k current current hchain' hkeys' (Or.inr ?_)
              exact ⟨hk.1, hk.2, rfl, le_refl _, le_of_lt hcur, hgt⟩
            · rw [hw]
              refine ih k e' e' hchain' hkeys' (Or.inr ?_)
              have hle'' : e' ≤ n := by
                rw [List.length_drop, hn] at hle'
                omega
              exact ⟨hk.1, hk.2, rfl, by omega, hle'', hgt⟩
        | cons d D' =>
            obtain ⟨hkd, hL'⟩ := List.cons.inj hL
            subst hkd
            have hsmem : s ∈ keysOf L' := by
              rw [hL']
              show s ∈ keysOf (D' ++ (s, p0) :: R)
              rw [keysOf_append, keysOf_cons]
              exact List.mem_append.mpr (Or.inr (List.mem_cons_self _ _))
            have hks : k < s := hgt s hsmem
            have hng : ¬ k > s := by omega
            have hL'' : L' = D' ++ (s, p0) :: R := hL'
            by_cases ht : p.term = true
            · have hstep : lookaheadLoop text current ((k, p) :: L') (s, e, sk)
                  = lookaheadLoop text current L'
                      (lookWhile k p (text.drop (current + 1)) (current + 1)
                        (k, current + 1, current + 1)) := by
                simp [lookaheadLoop, hng, hks, ht]
              rw [hstep]
              rcases lookWhile_cases k (text.drop (current + 1)) p (current + 1)
                  (k, current + 1, current + 1) with hw | ⟨e', hw, hlt', hle'⟩
              · rw [hw]
                refine ih k (current + 1) (current + 1) hchain' hkeys' (Or.inr ?_)
                exact ⟨hk.1, hk.2, rfl, by omega, by omega, hgt⟩
              · rw [hw]
                refine ih k e' e' hchain' hkeys' (Or.inr ?_)
                have hle'' : e' ≤ n := by
                  rw [List.length_drop, hn] at hle'
                  omega
                exact ⟨hk.1, hk.2, rfl, by omega, hle'', hgt⟩
            · have hstep : lookaheadLoop text current ((k, p) :: L') (s, e, sk)
                  = lookaheadLoop text current L'
                      (lookWhile k p (text.drop (current + 1)) (current + 1)
                        (s, current + 1, sk)) := by
                simp [lookaheadLoop, hng, hks, ht]
              rw [hstep]
              rcases lookWhile_cases k (text.drop (current + 1)) p (current + 1)
                  (s, current + 1, sk) with hw | ⟨e', hw, hlt', hle'⟩
              · rw [hw]
                refine ih s (current + 1) sk hchain' hkeys' (Or.inl ?_)
                exact ⟨D', p0, R, hL'', hterm⟩
              · rw [hw]
                refine ih k e' e' hchain' hkeys' (Or.inr ?_)
                have hle'' : e' ≤ n := by
                  rw [List.length_drop, hn] at hle'
                  omega
                exact ⟨hk.1, hk.2, rfl, by omega, hle'', hgt⟩
      · have hks : s < k := h6 k (by simp [keysOf_cons])
        have hstep : lookaheadLoop text current ((k, p) :: L') (s, e, sk) = (s, e, sk) := by
          simp [lookaheadLoop, hks]
        rw [hstep]
        exact ⟨h1, h2, h3, h4, h5⟩

/-- Outcome of one pass over the states dict: a match resolves (via the
lookahead) to a well-formed cut pair, and otherwise the keys of the dict are
unchanged (only pointers advance; deletions happen afterwards). -/
theorem statesLoop_spec (text : List Char) (current n lo : Nat) (hn : text.length = n)
    (hcur : current < n) (cc : Char) :
    ∀ (pending done : List (Nat × TrieNode)) (rem : List Nat),
      List.Chain' (· < ·) (keysOf (done ++ pending)) →
      (∀ k ∈ keysOf (done ++ pending), lo ≤ k ∧ k < current) →
      (match statesLoop text current cc lo done pending rem with
       | .reset s e sk => lo ≤ s ∧ s < current ∧ e = sk ∧ current ≤ e ∧ e ≤ n
       | .advance ns _ => keysOf ns = keysOf (done ++ pending)) := by
  intro pending
  induction pending with
  | nil =>
      intro done rem hch hks
      simp [statesLoop]
  | cons hd rest ih =>
      obtain ⟨start, ptr⟩ := hd
      intro done rem hch hks
      by_cases ht : ptr.term = true
      · have hg := lookahead_good text current n lo hn hcur (done ++ (start, ptr) :: rest)
          start current lo hch hks (Or.inl ⟨done, ptr, rest, rfl, ht⟩)
        have hstep : statesLoop text current cc lo done ((start, ptr) :: rest) rem =
            .reset (lookaheadLoop text current (done ++ (start, ptr) :: rest) (start, current, lo)).1
              (lookaheadLoop text current (done ++ (start, ptr) :: rest) (start, current, lo)).2.1
              (lookaheadLoop text current (done ++ (start, ptr) :: rest) (start, current, lo)).2.2 := by
          simp [statesLoop, ht]
        rw [hstep]
        exact ⟨hg.1, hg.2.1, hg.2.2.1, hg.2.2.2.1, hg.2.2.2.2⟩
      · have hkeq : ∀ x : TrieNode,
            keysOf ((done ++ [(start, x)]) ++ rest) = keysOf (done ++ (start, ptr) :: rest) := by
          intro x
          simp [keysOf]
        cases hf : ptr.find? cc with
        | some ptr' =>
            have hstep : statesLoop text current cc lo done ((start, ptr) :: rest) rem =
                statesLoop text current cc lo (done ++ [(start, ptr')]) rest rem := by
              simp [statesLoop, ht, hf]
            have hch2 : List.Chain' (· < ·) (keysOf ((done ++ [(start, ptr')]) ++ rest)) := by
              rw [hkeq]
              exact hch
            have hks2 : ∀ k ∈ keysOf ((done ++ [(start, ptr')]) ++ rest), lo ≤ k ∧ k < current := by
              intro k hk
              rw [hkeq] at hk
              exact hks k hk
            have h3 := ih (done ++ [(start, ptr')]) rem hch2 hks2
            rw [hstep]
            cases hout : statesLoop text current cc lo (done ++ [(start, ptr')]) rest rem with
            | reset a b c =>
                rw [hout] at h3
                exact h3
            | advance ns rem2 =>
                rw [hout] at h3
                exact h3.trans (hkeq ptr')
        | none =>
            have hstep : statesLoop text current cc lo done ((start, ptr) :: rest) rem =
                statesLoop text current cc lo (done ++ [(start, ptr)]) rest (rem ++ [start]) := by
              simp [statesLoop, ht, hf]
            have hch2 : List.Chain' (· < ·) (keysOf ((done ++ [(start, ptr)]) ++ rest)) := by
              rw [hkeq]
              exact hch
            have hks2 : ∀ k ∈ keysOf ((done ++ [(start, ptr)]) ++ rest), lo ≤ k ∧ k < current := by
              intro k hk
              rw [hkeq] at hk
              exact hks k hk
            have h3 := ih (done ++ [(start, ptr)]) (rem ++ [start]) hch2 hks2
            rw [hstep]
            cases hout : statesLoop text current cc lo (done ++ [(start, ptr)]) rest (rem ++ [start]) with
            | reset a b c =>
                rw [hout] at h3
                exact h3
            | advance ns rem2 =>
                rw [hout] at h3
                exact h3.trans (hkeq ptr)

/-- The loop invariant of `split`'s main scan after `i` characters:
the recorded cut offsets are monotone, bounded by the text length and end
at or below `skip`, and the state keys are strictly increasing, at least
`skip` and below `i`. -/
structure SInv (n i : Nat) (st : SState) : Prop where
  offs_ne : st.offsets ≠ []
  offs_chain : List.Chain' (· ≤ ·) st.offsets
  offs_le : ∀ x ∈ st.offsets, x ≤ n
  last_le : st.offsets.getLastD 0 ≤ st.skip
  keys_sorted : List.Chain' (· < ·) (keysOf st.states)
  keys_lb : ∀ k ∈ keysOf st.states, st.skip ≤ k
  keys_ub : ∀ k ∈ keysOf st.states, k < i

theorem keysOf_filter_sublist (ns : List (Nat × TrieNode)) (f : Nat × TrieNode → Bool) :
    (keysOf (ns.filter f)).Sublist (keysOf ns) :=
  List.Sublist.map Prod.fst (List.filter_sublist ns)

theorem regStep_inv {n i : Nat} {st1 : SState} (root : TrieNode) (cc : Char)
    (hne : st1.offsets ≠ []) (hch : List.Chain' (· ≤ ·) st1.offsets)
    (hle : ∀ x ∈ st1.offsets, x ≤ n) (hlast : st1.offsets.getLastD 0 ≤ st1.skip)
    (hkch : List.Chain' (· < ·) (keysOf st1.states))
    (hklb : ∀ k ∈ keysOf st1.states, st1.skip ≤ k)
    (hkub : ∀ k ∈ keysOf st1.states, k < i) :
    SInv n (i + 1) (regStep root i cc st1) := by
  unfold regStep
  cases hf : root.find? cc with
  | none => exact ⟨hne, hch, hle, hlast, hkch, hklb, fun k hk => Nat.lt_succ_of_lt (hkub k hk)⟩
  | some child =>
      show SInv n (i + 1)
        (if st1.skip ≤ i then ⟨st1.states ++ [(i, child)], st1.offsets, st1.skip⟩ else st1)
      by_cases hg : st1.skip ≤ i
      · rw [if_pos hg]
        refine ⟨hne, hch, hle, hlast, ?_, ?_, ?_⟩
        · show List.Chain' (· < ·) (keysOf (st1.states ++ [(i, child)]))
          rw [keysOf_append]
          refine List.chain'_append.mpr ⟨hkch, List.chain'_singleton _, ?_⟩
          intro x hx y hy
          simp only [keysOf_cons, keysOf_nil, List.head?_cons, Option.mem_def,
            Option.some.injEq] at hy
          subst hy
          exact hkub x (mem_of_getLastOpt hx)
        · show ∀ k ∈ keysOf (st1.states ++ [(i, child)]), st1.skip ≤ k
          intro k hk
          rw [keysOf_append] at hk
          rcases List.mem_append.mp hk with h1 | h1
          · exact hklb k h1
          · simp only [keysOf_cons, keysOf_nil, List.mem_singleton] at h1
            subst h1
            exact hg
        · show ∀ k ∈ keysOf (st1.states ++ [(i, child)]), k < i + 1
          intro k hk
          rw [keysOf_append] at hk
          rcases List.mem_append.mp hk with h1 | h1
          · exact Nat.lt_succ_of_lt (hkub k h1)
          · simp only [keysOf_cons, keysOf_nil, List.mem_singleton] at h1
            subst h1
            omega
      · rw [if_neg hg]
        exact ⟨hne, hch, hle, hlast, hkch, hklb, fun k hk => Nat.lt_succ_of_lt (hkub k hk)⟩

theorem charStep_inv (root : TrieNode) (text : List Char) {n : Nat} (hn : text.length = n)
    {i : Nat} (hin : i < n) {st : SState} (hinv : SInv n i st) (c : Char) :
    SInv n (i + 1) (charStep root text st i c) := by
  unfold charStep
  by_cases hskip : st.skip ≠ 0 ∧ i < st.skip
  · rw [if_pos hskip]
    exact ⟨hinv.offs_ne, hinv.offs_chain, hinv.offs_le, hinv.last_le, hinv.keys_sorted,
      hinv.keys_lb, fun k hk => Nat.lt_succ_of_lt (hinv.keys_ub k hk)⟩
  · rw [if_neg hskip]
    have hsl := statesLoop_spec text i n st.skip hn hin c st.states [] []
      (by simpa using hinv.keys_sorted)
      (by simpa using fun k hk => ⟨hinv.keys_lb k hk, hinv.keys_ub k hk⟩)
    cases hout : statesLoop text i c st.skip [] st.states [] with
    | reset s e sk =>
        rw [hout] at hsl
        obtain ⟨hs1, hs2, hs3, hs4, hs5⟩ := hsl
        refine regStep_inv root c ?_ ?_ ?_ ?_ ?_ ?_ ?_
        · simp
        · show List.Chain' (· ≤ ·) (st.offsets ++ [s, e])
          refine List.chain'_append.mpr ⟨hinv.offs_chain, ?_, ?_⟩
          · exact List.chain'_cons.mpr ⟨by omega, List.chain'_singleton _⟩
          · intro x hx y hy
            simp only [List.head?_cons, Option.mem_def, Option.some.injEq] at hy
            subst hy
            have hx2 := getLastD_of_getLastOpt hx
            have := hinv.last_le
            omega
        · show ∀ x ∈ st.offsets ++ [s, e], x ≤ n
          intro x hx
          rcases List.mem_append.mp hx with h1 | h1
          · exact hinv.offs_le x h1
          · have h2 : x = s ∨ x = e := by simpa using h1
            rcases h2 with rfl | rfl
            · omega
            · exact hs5
        · show (st.offsets ++ [s, e]).getLastD 0 ≤ sk
          have hsplit : st.offsets ++ [s, e] = (st.offsets ++ [s]) ++ [e] := by simp
          rw [hsplit, List.getLastD_concat]
          omega
        · show List.Chain' (· < ·) (keysOf ([] : List (Nat × TrieNode)))
          simp [keysOf]
        · intro k hk
          simp [keysOf] at hk
        · intro k hk
          simp [keysOf] at hk
    | advance ns rem =>
        rw [hout] at hsl
        simp only [List.nil_append] at hsl
        have hsub : (keysOf (ns.filter (fun p => ¬ p.1 ∈ rem))).Sublist (keysOf ns) :=
          keysOf_filter_sublist ns _
        refine regStep_inv root c hinv.offs_ne hinv.offs_chain hinv.offs_le hinv.last_le ?_ ?_ ?_
        · refine List.chain'_iff_pairwise.mpr ?_
          refine List.Pairwise.sublist hsub ?_
          rw [hsl]
          exact List.chain'_iff_pairwise.mp hinv.keys_sorted
        · intro k hk
          have hk2 : k ∈ keysOf ns := hsub.subset hk
          rw [hsl] at hk2
          exact hinv.keys_lb k hk2
        · intro k hk
          have hk2 : k ∈ keysOf ns := hsub.subset hk
          rw [hsl] at hk2
          exact hinv.keys_ub k hk2

theorem runSplit_inv (root : TrieNode) (text : List Char) {n : Nat} (hn : text.length = n) :
    ∀ (cursor : List Char) (i : Nat) (st : SState),
      i + cursor.length = n → SInv n i st →
      SInv n n (runSplit root text i cursor st) := by
  intro cursor
  induction cursor with
  | nil =>
      intro i st hlen hinv
      simp only [List.length_nil, Nat.add_zero] at hlen
      subst hlen
      exact hinv
  | cons c rest ih =>
      intro i st hlen hinv
      simp only [List.length_cons] at hlen
      show SInv n n (runSplit root text (i + 1) rest (charStep root text st i c))
      exact ih (i + 1) _ (by omega) (charStep_inv root text hn (by omega) hinv c)

/-- The end-of-text pass keeps the offsets monotone and bounded. -/
theorem endStates_spec (n : Nat) :
    ∀ (states : List (Nat × TrieNode)) (offs : List Nat) (sk : Nat),
      offs ≠ [] → List.Chain' (· ≤ ·) offs → (∀ x ∈ offs, x ≤ n) → offs.getLastD 0 ≤ sk →
      (∀ k ∈ keysOf states, sk ≤ k ∧ k < n) →
      List.Chain' (· ≤ ·) (endStates n states offs) ∧
      (∀ x ∈ endStates n states offs, x ≤ n) := by
  intro states
  induction states with
  | nil => intro offs sk _ hch hle _ _; exact ⟨hch, hle⟩
  | cons hd rest ih =>
      obtain ⟨start, ptr⟩ := hd
      intro offs sk hne hch hle hlast hks
      have hk := hks start (by simp [keysOf_cons])
      by_cases ht : ptr.term = true
      · have hstep : endStates n ((start, ptr) :: rest) offs = offs ++ [start, n] := by
          simp [endStates, ht]
        rw [hstep]
        constructor
        · refine List.chain'_append.mpr ⟨hch, ?_, ?_⟩
          · exact List.chain'_cons.mpr ⟨by omega, List.chain'_singleton _⟩
          · intro x hx y hy
            simp only [List.head?_cons, Option.mem_def, Option.some.injEq] at hy
            subst hy
            have hx2 := getLastD_of_getLastOpt hx
            omega
        · intro x hx
          rcases List.mem_append.mp hx with h1 | h1
          · exact hle x h1
          · have h2 : x = start ∨ x = n := by simpa using h1
            rcases h2 with rfl | rfl
            · omega
            · exact le_refl _
      · have hstep : endStates n ((start, ptr) :: rest) offs = endStates n rest offs := by
          simp [endStates, ht]
        rw [hstep]
        refine ih offs sk hne hch hle hlast ?_
        intro k hk2
        exact hks k (by rw [keysOf_cons]; exact List.mem_cons_of_mem _ hk2)

/-- Master theorem for `split`: it always returns normally (the inverted-span
anomaly branch of `cut_text` is never reached) and the returned fragments
concatenate to the input text. -/
theorem split_ok (t : Trie) (text : List Char) :
    ∃ fragments, Trie.split t text = Except.ok fragments ∧ fragments.flatten = text := by
  unfold Trie.split splitLoop
  have hinit : SInv text.length 0 ⟨[], [0], 0⟩ := by
    refine ⟨by simp, List.chain'_singleton _, ?_, by simp, by simp [keysOf], ?_, ?_⟩
    · intro x hx
      have : x = 0 := by simpa using hx
      omega
    · intro k hk
      simp [keysOf] at hk
    · intro k hk
      simp [keysOf] at hk
  have hfin := runSplit_inv t.data text rfl text 0 ⟨[], [0], 0⟩ (by simp) hinit
  obtain ⟨hch, hle⟩ := endStates_spec text.length
    (runSplit t.data text 0 text ⟨[], [0], 0⟩).states
    (runSplit t.data text 0 text ⟨[], [0], 0⟩).offsets
    (runSplit t.data text 0 text ⟨[], [0], 0⟩).skip
    hfin.offs_ne hfin.offs_chain hfin.offs_le hfin.last_le
    (fun k hk => ⟨hfin.keys_lb k hk, hfin.keys_ub k hk⟩)
  exact cut_text_ok text _ hch hle

/-- C1: for every vocabulary and every input text, concatenating the
fragments of `split(text)` in order reproduces `text` exactly. -/
theorem claim1_concat_invariant (ws : List (List Char)) (text : List Char) :
    ∃ fragments, Trie.split (buildTrie ws) text = Except.ok fragments ∧
      fragments.flatten = text :=
  split_ok (buildTrie ws) text

/-- C4: `split` returns normally on every vocabulary and text; the
inverted-span anomaly branch of the fragment extraction (which would raise)
is never reached from `split`. -/
theorem claim4_split_no_anomaly (ws : List (List Char)) (text : List Char) :
    Trie.split (buildTrie ws) text ≠ Except.error () := by
  obtain ⟨fragments, hok, _⟩ := split_ok (buildTrie ws) text
  rw [hok]
  simp

/-! ### Exact isolation of a vocabulary occurrence (C6)

Groundwork: slice and walk lemmas, and the characterisation of walkable
strings as prefixes of vocabulary words. -/

theorem drop_succ_of_cons {text rest : List Char} {i : Nat} {c : Char}
    (h : text.drop i = c :: rest) : text.drop (i + 1) = rest := by
  have : text.drop (i + 1) = (text.drop i).drop 1 := by
    rw [List.drop_drop]
  rw [this, h]
  rfl

theorem lt_length_of_drop_cons {text rest : List Char} {i : Nat} {c : Char}
    (h : text.drop i = c :: rest) : i < text.length := by
  by_contra hcon
  rw [List.drop_eq_nil_of_le (by omega)] at h
  exact absurd h (by simp)

theorem sliceTxt_take {text : List Char} {q m m' : Nat} (h : m ≤ m') :
    sliceTxt text q m = (sliceTxt text q m').take (m - q) := by
  unfold sliceTxt
  rw [List.take_take]
  congr 1
  omega

theorem sliceTxt_snoc {text rest : List Char} {q i : Nat} {c : Char} (hqi : q ≤ i)
    (h : text.drop i = c :: rest) :
    sliceTxt text q (i + 1) = sliceTxt text q i ++ [c] := by
  unfold sliceTxt
  have h1 : i + 1 - q = (i - q) + 1 := by omega
  rw [h1, List.take_add]
  congr 1
  have h2 : (text.drop q).drop (i - q) = text.drop i := by
    rw [List.drop_drop]
    congr 1
    omega
  rw [h2, h]
  rfl

theorem sliceTxt_length (text : List Char) (q m : Nat) :
    (sliceTxt text q m).length = min (m - q) (text.length - q) := by
  unfold sliceTxt
  rw [List.length_take, List.length_drop]

theorem sliceTxt_ne_nil {text : List Char} {q m : Nat} (h1 : q < m) (h2 : m ≤ text.length) :
    sliceTxt text q m ≠ [] := by
  intro hcon
  have := sliceTxt_length text q m
  rw [hcon] at this
  simp at this
  omega

theorem walk?_isSome_append {t : TrieNode} {a b : List Char}
    (h : (t.walk? (a ++ b)).isSome = true) : (t.walk? a).isSome = true := by
  rw [walk?_append] at h
  cases ha : t.walk? a with
  | none => rw [ha] at h; simp at h
  | some nd => simp

theorem memWalk_of_walk {t nd : TrieNode} {s : List Char} (h : t.walk? s = some nd) :
    memWalk t s = nd.term := by
  unfold memWalk
  rw [h]

theorem walk_isSome_of_memWalk {t : TrieNode} {s : List Char} (h : memWalk t s = true) :
    (t.walk? s).isSome = true := by
  unfold memWalk at h
  cases hw : t.walk? s with
  | none => rw [hw] at h; simp at h
  | some nd => simp

/-- Walkability in an extended trie: a string walks through `addChars n v`
iff it walks through `n` or is a prefix of `v`. -/
theorem walkSome_addChars : ∀ (v : List Char) (n : TrieNode) (s : List Char),
    ((addChars n v).walk? s).isSome = true ↔ ((n.walk? s).isSome = true ∨ s <+: v) := by
  intro v
  induction v with
  | nil =>
      intro n s
      cases s with
      | nil => simp [TrieNode.walk?, List.prefix_nil]
      | cons d ws =>
          rw [addChars_nil]
          have hsame : (TrieNode.mk true n.children).find? d = n.find? d := rfl
          simp only [TrieNode.walk?, hsame, List.prefix_nil]
          cases n.find? d with
          | none => simp
          | some t' => simp
  | cons c cs ih =>
      intro n s
      cases s with
      | nil => simp [TrieNode.walk?]
      | cons d ws =>
          by_cases hd : d = c
          · subst hd
            cases h : n.find? d with
            | some child =>
                have h1 : (addChars n (d :: cs)).find? d = some (addChars child cs) := by
                  rw [addChars_cons_some cs h]
                  exact lookupChild_updateAssoc_self h
                simp only [TrieNode.walk?, h1, h, List.cons_prefix_cons, true_and]
                exact ih child ws
            | none =>
                have h1 : (addChars n (d :: cs)).find? d = some (addChars (.mk false []) cs) := by
                  rw [addChars_cons_none cs h]
                  show lookupChild (n.children ++ [(d, addChars (.mk false []) cs)]) d = _
                  rw [lookupChild_append_of_none h]
                  simp [lookupChild]
                simp only [TrieNode.walk?, h1, h, List.cons_prefix_cons, true_and]
                rw [ih (.mk false []) ws]
                constructor
                · rintro (h2 | h2)
                  · cases ws with
                    | nil => exact Or.inr List.nil_prefix
                    | cons e es =>
                        simp only [TrieNode.walk?] at h2
                        have : TrieNode.find? (.mk false []) e = none := by
                          simp [TrieNode.find?, lookupChild]
                        rw [this] at h2
                        simp at h2
                  · exact Or.inr h2
                · rintro (h2 | h2)
                  · simp at h2
                  · exact Or.inr h2
          · have hsame : (addChars n (c :: cs)).find? d = n.find? d := by
              cases h : n.find? c with
              | some child =>
                  rw [addChars_cons_some cs h]
                  exact lookupChild_updateAssoc_ne hd
              | none =>
                  rw [addChars_cons_none cs h]
                  show lookupChild (n.children ++ [(c, addChars (.mk false []) cs)]) d = _
                  cases h2 : n.find? d with
                  | some v => exact lookupChild_append_of_some h2
                  | none =>
                      rw [lookupChild_append_of_none h2]
                      have hcd : ¬ c = d := fun hh => hd (Eq.symm hh)
                      simp [lookupChild, hcd]
            have hpre : ¬ (d :: ws <+: c :: cs) := by
              rw [List.cons_prefix_cons]
              rintro ⟨h2, _⟩
              exact hd h2
            simp only [TrieNode.walk?, hsame, hpre, or_false]

theorem walk?_singleton (x : TrieNode) (c : Char) : x.walk? [c] = x.find? c := by
  simp only [TrieNode.walk?]
  cases x.find? c with
  | none => rfl
  | some y => rfl

/-- In a built trie, a nonempty string is walkable iff it is a prefix of
some vocabulary word. -/
theorem walkSome_buildTrie (ws : List (List Char)) :
    ∀ s : List Char, s ≠ [] →
      ((((buildTrie ws).data.walk? s).isSome = true) ↔ ∃ v ∈ (buildTrie ws).tokens, s <+: v) := by
  have step : ∀ (l : List (List Char)) (t : Trie),
      (∀ s : List Char, s ≠ [] → (((t.data.walk? s).isSome = true) ↔ ∃ v ∈ t.tokens, s <+: v)) →
      ∀ s : List Char, s ≠ [] →
        ((((l.foldl Trie.add t).data.walk? s).isSome = true) ↔
          ∃ v ∈ (l.foldl Trie.add t).tokens, s <+: v) := by
    intro l
    induction l with
    | nil => intro t h; exact h
    | cons v rest ih =>
        intro t h
        refine ih (t.add v) ?_
        intro s hs
        by_cases hv : v = []
        · simpa [Trie.add, hv] using h s hs
        · simp only [Trie.add, if_neg hv, Finset.mem_insert]
          rw [walkSome_addChars v t.data s, h s hs]
          constructor
          · rintro (⟨u, hu1, hu2⟩ | h2)
            · exact ⟨u, Or.inr hu1, hu2⟩
            · exact ⟨v, Or.inl rfl, h2⟩
          · rintro ⟨u, hu1, hu2⟩
            rcases hu1 with rfl | hu1
            · exact Or.inr hu2
            · exact Or.inl ⟨u, hu1, hu2⟩
  refine step ws Trie.new ?_
  intro s hs
  cases s with
  | nil => exact absurd rfl hs
  | cons c cs =>
      constructor
      · intro h
        exfalso
        have : (Trie.new.data.walk? (c :: cs)) = none := by
          simp [Trie.new, TrieNode.walk?, TrieNode.find?, lookupChild]
        rw [this] at h
        simp at h
      · rintro ⟨v, hv, _⟩
        exact absurd hv (by simp [Trie.new])

theorem root_term_false (ws : List (List Char)) : (buildTrie ws).data.term = false := by
  have step : ∀ (l : List (List Char)) (t : Trie), t.data.term = false →
      (l.foldl Trie.add t).data.term = false := by
    intro l
    induction l with
    | nil => intro t h; exact h
    | cons v rest ih =>
        intro t h
        refine ih (t.add v) ?_
        cases hv : v with
        | nil => simpa [Trie.add] using h
        | cons c cs =>
            simp only [Trie.add, if_neg (by simp : ¬ (c :: cs : List Char) = [])]
            cases hf : t.data.find? c with
            | some child => rw [addChars_cons_some cs hf]; exact h
            | none => rw [addChars_cons_none cs hf]; exact h
  exact step ws Trie.new rfl

theorem nil_not_mem_tokens (ws : List (List Char)) : [] ∉ (buildTrie ws).tokens := by
  intro h
  have h2 := (agrees_buildTrie ws []).mp h
  rw [memWalk_nil, root_term_false ws] at h2
  exact absurd h2 (by simp)

theorem lookahead_break (text : List Char) (current : Nat) :
    ∀ (L : List (Nat × TrieNode)) (s e sk : Nat), (∀ k ∈ keysOf L, s < k) →
      lookaheadLoop text current L (s, e, sk) = (s, e, sk) := by
  intro L s e sk h
  cases L with
  | nil => rfl
  | cons hd rest =>
      obtain ⟨k, p⟩ := hd
      have hk : s < k := h k (by simp [keysOf_cons])
      simp [lookaheadLoop, hk]

/-- If no terminal lies strictly beyond `base` on the text path from `p`,
the lookahead while-loop started at or past `base` never overwrites its
accumulator. -/
theorem lookWhile_nofire (root : TrieNode) (text : List Char) (p base : Nat)
    (hno : ∀ m, base < m → m ≤ text.length → memWalk root (sliceTxt text p m) = false) :
    ∀ (cursor : List Char) (j : Nat) (ptr : TrieNode) (lookstart : Nat) (acc : Nat × Nat × Nat),
      text.drop j = cursor → p ≤ j → base ≤ j →
      root.walk? (sliceTxt text p j) = some ptr →
      lookWhile lookstart ptr cursor j acc = acc := by
  intro cursor
  induction cursor with
  | nil => intro j ptr lookstart acc _ _ _ _; rfl
  | cons c rs ih =>
      intro j ptr lookstart acc hdrop hpj hbj hw
      have hjn : j < text.length := lt_length_of_drop_cons hdrop
      cases hf : ptr.find? c with
      | none => simp [lookWhile, hf]
      | some ptr' =>
          have hw' : root.walk? (sliceTxt text p (j + 1)) = some ptr' := by
            rw [sliceTxt_snoc hpj hdrop, walk?_append, hw]
            show ptr.walk? [c] = some ptr'
            rw [walk?_singleton, hf]
          have hterm' : ptr'.term = false := by
            rw [← memWalk_of_walk hw']
            exact hno (j + 1) (by omega) (by omega)
          have hstep : lookWhile lookstart ptr (c :: rs) j acc =
              lookWhile lookstart ptr' rs (j + 1) acc := by
            simp [lookWhile, hf, hterm']
          rw [hstep]
          exact ih (j + 1) ptr' lookstart acc (drop_succ_of_cons hdrop) (by omega) (by omega) hw'

/-- Following the occurrence of a vocabulary word from inside it, the
lookahead while-loop ends with the accumulator `(lookstart, E, E)` where `E`
is the end of the longest vocabulary word starting at `p` (no longer word
extends it). -/
theorem lookWhile_fire (root : TrieNode) (text : List Char) (p E : Nat)
    (hE : E ≤ text.length)
    (hterm : memWalk root (sliceTxt text p E) = true)
    (hwalkable : ∀ m, p ≤ m → m ≤ E → (root.walk? (sliceTxt text p m)).isSome = true)
    (hnoext : ∀ m, E < m → m ≤ text.length → memWalk root (sliceTxt text p m) = false) :
    ∀ (fuel j : Nat) (ptr : TrieNode) (lookstart : Nat) (acc : Nat × Nat × Nat),
      fuel = E - j → p ≤ j → j < E →
      root.walk? (sliceTxt text p j) = some ptr →
      lookWhile lookstart ptr (text.drop j) j acc = (lookstart, E, E) := by
  intro fuel
  induction fuel with
  | zero => intro j ptr lookstart acc hfuel _ hjE _; omega
  | succ fuel ih =>
      intro j ptr lookstart acc hfuel hpj hjE hw
      have hjn : j < text.length := by omega
      cases hdrop : text.drop j with
      | nil =>
          exfalso
          have := List.length_drop j text
          rw [hdrop] at this
          simp at this
          omega
      | cons c rs =>
          have hsome : (root.walk? (sliceTxt text p (j + 1))).isSome = true :=
            hwalkable (j + 1) (by omega) (by omega)
          obtain ⟨ptr', hw'⟩ := Option.isSome_iff_exists.mp hsome
          have hfind : ptr.find? c = some ptr' := by
            rw [sliceTxt_snoc hpj hdrop, walk?_append, hw] at hw'
            rw [← walk?_singleton]
            exact hw'
          have hstep : lookWhile lookstart ptr (c :: rs) j acc =
              lookWhile lookstart ptr' rs (j + 1)
                (if ptr'.term = true then (lookstart, j + 1, j + 1) else acc) := by
            simp [lookWhile, hfind]
          rw [hstep]
          have hrs : text.drop (j + 1) = rs := drop_succ_of_cons hdrop
          by_cases hj1 : j + 1 = E
          · have hterm' : ptr'.term = true := by
              rw [← memWalk_of_walk hw', hj1]
              exact hterm
            rw [if_pos hterm', hj1]
            rw [hj1] at hrs hw'
            exact lookWhile_nofire root text p E hnoext rs E ptr' lookstart
              (lookstart, E, E) hrs (by omega) (le_refl E) hw'
          · rw [← hrs]
            exact ih (j + 1) ptr' lookstart _ (by omega) (by omega) (by omega) hw'

/-- When the head of the lookahead snapshot is the partial match of the
occurrence at `p` (with pointer at text position `li0 ∈ [current, E]`), and
every other snapshot key is past `p`, the lookahead resolves to the cut pair
`(p, E)` with `skip = E`. -/
theorem lookahead_occ (root : TrieNode) (text : List Char) (p E : Nat)
    (hE : E ≤ text.length)
    (hterm : memWalk root (sliceTxt text p E) = true)
    (hwalkable : ∀ m, p ≤ m → m ≤ E → (root.walk? (sliceTxt text p m)).isSome = true)
    (hnoext : ∀ m, E < m → m ≤ text.length → memWalk root (sliceTxt text p m) = false)
    (others : List (Nat × TrieNode)) (ptrh : TrieNode) (s0 e0 sk0 current : Nat)
    (hps0 : p ≤ s0) (hpc : p ≤ current)
    (hwh : root.walk? (sliceTxt text p (if p < s0 then current + 1 else current)) = some ptrh)
    (hliE : (if p < s0 then current + 1 else current) ≤ E)
    (hothers : ∀ k ∈ keysOf others, p < k) :
    lookaheadLoop text current ((p, ptrh) :: others) (s0, e0, sk0) = (p, E, E) := by
  have hcore : ∀ li0 : Nat, p ≤ li0 → li0 ≤ E →
      root.walk? (sliceTxt text p li0) = some ptrh →
      ∀ acc0 : Nat × Nat × Nat,
      lookWhile p ptrh (text.drop li0) li0
        (if ptrh.term = true then (p, li0, li0) else acc0) = (p, E, E) := by
    intro li0 hpli hliE2 hw acc0
    by_cases hlt : li0 < E
    · exact lookWhile_fire root text p E hE hterm hwalkable hnoext (E - li0) li0 ptrh p _
        rfl hpli hlt hw
    · have hli0E : li0 = E := by omega
      subst hli0E
      have hterm' : ptrh.term = true := by
        rw [← memWalk_of_walk hw]
        exact hterm
      rw [if_pos hterm']
      exact lookWhile_nofire root text p li0 hnoext (text.drop li0) li0 ptrh p
        (p, li0, li0) rfl hpli (le_refl _) hw
  by_cases hps : p < s0
  · rw [if_pos hps] at hwh hliE
    have hstep : lookaheadLoop text current ((p, ptrh) :: others) (s0, e0, sk0) =
        lookaheadLoop text current others
          (lookWhile p ptrh (text.drop (current + 1)) (current + 1)
            (if ptrh.term = true then (p, current + 1, current + 1) else (s0, current + 1, sk0))) := by
      have hng : ¬ s0 < p := by omega
      simp only [lookaheadLoop, gt_iff_lt, if_neg hng, if_pos hps]
    rw [hstep, hcore (current + 1) (by omega) hliE hwh (s0, current + 1, sk0)]
    exact lookahead_break text current others p E E hothers
  · have hs0p : s0 = p := by omega
    subst hs0p
    rw [if_neg hps] at hwh hliE
    have hstep : lookaheadLoop text current ((s0, ptrh) :: others) (s0, e0, sk0) =
        lookaheadLoop text current others
          (lookWhile s0 ptrh (text.drop current) current
            (if ptrh.term = true then (s0, current, current) else (s0, current, sk0))) := by
      simp only [lookaheadLoop, gt_iff_lt, if_neg (lt_irrefl s0)]
    rw [hstep, hcore current hpc hliE hwh (s0, current, sk0)]
    exact lookahead_break text current others s0 E E hothers

/-- When no pending state is terminal, the states pass only advances
pointers in place and marks dead states; every entry that survives the
subsequent deletion satisfies the transferred predicate `Q`. -/
theorem statesLoop_noterm (text : List Char) (current : Nat) (cc : Char) (sk : Nat)
    (Q : Nat × TrieNode → Prop) :
    ∀ (pending done : List (Nat × TrieNode)) (rem : List Nat),
      (∀ pr ∈ pending, pr.2.term = false) →
      (∀ pr ∈ done, ¬ pr.1 ∈ rem → Q pr) →
      (∀ pr ∈ pending, ∀ ptr', pr.2.find? cc = some ptr' → Q (pr.1, ptr')) →
      ∃ ns rem', statesLoop text current cc sk done pending rem = .advance ns rem' ∧
        (∃ tail, ns = done ++ tail) ∧
        (∀ x ∈ rem, x ∈ rem') ∧
        (∀ x ∈ rem', x ∈ rem ∨ x ∈ keysOf pending) ∧
        (∀ pr ∈ ns, ¬ pr.1 ∈ rem' → Q pr) := by
  intro pending
  induction pending with
  | nil =>
      intro done rem _ hQd _
      refine ⟨done, rem, by simp [statesLoop], ⟨[], by simp⟩, fun x hx => hx,
        fun x hx => Or.inl hx, hQd⟩
  | cons hd rest ih =>
      obtain ⟨start, ptr⟩ := hd
      intro done rem hterm hQd hQp
      have ht : ptr.term = false := hterm (start, ptr) (List.mem_cons_self _ _)
      have hterm' : ∀ pr ∈ rest, pr.2.term = false :=
        fun pr hpr => hterm pr (List.mem_cons_of_mem _ hpr)
      have hQp' : ∀ pr ∈ rest, ∀ ptr', pr.2.find? cc = some ptr' → Q (pr.1, ptr') :=
        fun pr hpr => hQp pr (List.mem_cons_of_mem _ hpr)
      cases hf : ptr.find? cc with
      | some ptr' =>
          have hstep : statesLoop text current cc sk done ((start, ptr) :: rest) rem =
              statesLoop text current cc sk (done ++ [(start, ptr')]) rest rem := by
            simp [statesLoop, ht, hf]
          have hQd' : ∀ pr ∈ done ++ [(start, ptr')], ¬ pr.1 ∈ rem → Q pr := by
            intro pr hpr hnr
            rcases List.mem_append.mp hpr with h1 | h1
            · exact hQd pr h1 hnr
            · have h2 : pr = (start, ptr') := by simpa using h1
              subst h2
              exact hQp (start, ptr) (List.mem_cons_self _ _) ptr' hf
          obtain ⟨ns, rem', heq, ⟨tail, htail⟩, hsub, hsup, hQ⟩ := ih (done ++ [(start, ptr')])
            rem hterm' hQd' hQp'
          refine ⟨ns, rem', hstep.trans heq, ⟨(start, ptr') :: tail, by simp [htail]⟩,
            hsub, ?_, hQ⟩
          intro x hx
          rcases hsup x hx with h1 | h1
          · exact Or.inl h1
          · exact Or.inr (by rw [keysOf_cons]; exact List.mem_cons_of_mem _ h1)
      | none =>
          have hstep : statesLoop text current cc sk done ((start, ptr) :: rest) rem =
              statesLoop text current cc sk (done ++ [(start, ptr)]) rest (rem ++ [start]) := by
            simp [statesLoop, ht, hf]
          have hQd' : ∀ pr ∈ done ++ [(start, ptr)], ¬ pr.1 ∈ rem ++ [start] → Q pr := by
            intro pr hpr hnr
            rcases List.mem_append.mp hpr with h1 | h1
            · exact hQd pr h1 (fun hc => hnr (List.mem_append.mpr (Or.inl hc)))
            · exfalso
              have h2 : pr = (start, ptr) := by simpa using h1
              subst h2
              exact hnr (List.mem_append.mpr (Or.inr (by simp)))
          obtain ⟨ns, rem', heq, ⟨tail, htail⟩, hsub, hsup, hQ⟩ := ih (done ++ [(start, ptr)])
            (rem ++ [start]) hterm' hQd' hQp'
          refine ⟨ns, rem', hstep.trans heq, ⟨(start, ptr) :: tail, by simp [htail]⟩, ?_, ?_, hQ⟩
          · intro x hx
            exact hsub x (List.mem_append.mpr (Or.inl hx))
          · intro x hx
            rcases hsup x hx with h1 | h1
            · rcases List.mem_append.mp h1 with h2 | h2
              · exact Or.inl h2
              · have h3 : x = start := by simpa using h2
                subst h3
                exact Or.inr (by simp [keysOf_cons])
            · exact Or.inr (by rw [keysOf_cons]; exact List.mem_cons_of_mem _ h1)

/-- Processing the states after the occurrence's own entry (which sits
advanced at the head of `done`): any terminal among them triggers the
lookahead, which resolves to the cut pair `(p, E)` because the occurrence's
entry is the first snapshot entry; otherwise pointers advance in place. -/
theorem statesLoop_occB_tail (root : TrieNode) (text : List Char) (p E : Nat)
    (hE : E ≤ text.length)
    (hterm : memWalk root (sliceTxt text p E) = true)
    (hwalkable : ∀ m, p ≤ m → m ≤ E → (root.walk? (sliceTxt text p m)).isSome = true)
    (hnoext : ∀ m, E < m → m ≤ text.length → memWalk root (sliceTxt text p m) = false)
    (current : Nat) (cc : Char) (sk : Nat) (rest0 : List Char)
    (hdrop : text.drop current = cc :: rest0)
    (hpc : p < current) (hc1E : current + 1 ≤ E) (ptrp' : TrieNode)
    (hwp' : root.walk? (sliceTxt text p (current + 1)) = some ptrp') :
    ∀ (pending : List (Nat × TrieNode)) (dtail : List (Nat × TrieNode)) (rem : List Nat),
      (∀ k ∈ keysOf (dtail ++ pending), p < k) →
      (∀ pr ∈ (p, ptrp') :: dtail, ¬ pr.1 ∈ rem →
        root.walk? (sliceTxt text pr.1 (current + 1)) = some pr.2) →
      (∀ pr ∈ pending, root.walk? (sliceTxt text pr.1 current) = some pr.2) →
      (∀ k ∈ keysOf pending, k < current) →
      (∀ x ∈ rem, p < x) →
      ((∃ ns rem', statesLoop text current cc sk ((p, ptrp') :: dtail) pending rem
          = .advance ns rem' ∧
        (∃ tail, ns = (p, ptrp') :: dtail ++ tail) ∧
        (∀ x ∈ rem', p < x) ∧
        (∀ pr ∈ ns, ¬ pr.1 ∈ rem' → root.walk? (sliceTxt text pr.1 (current + 1)) = some pr.2)) ∨
      statesLoop text current cc sk ((p, ptrp') :: dtail) pending rem = .reset p E E) := by
  intro pending
  induction pending with
  | nil =>
      intro dtail rem _ hQd _ _ hrem
      refine Or.inl ⟨(p, ptrp') :: dtail, rem, by simp [statesLoop], ⟨[], by simp⟩, hrem, hQd⟩
  | cons hd rest ih =>
      obtain ⟨q, ptrq⟩ := hd
      intro dtail rem hkeys hQd hQp hkub hrem
      have hpq : p < q := hkeys q (by rw [keysOf_append, keysOf_cons]; simp)
      have hqc : q < current := hkub q (by simp [keysOf_cons])
      have hQq : root.walk? (sliceTxt text q current) = some ptrq :=
        hQp (q, ptrq) (List.mem_cons_self _ _)
      by_cases hqt : ptrq.term = true
      · right
        have hstep : statesLoop text current cc sk ((p, ptrp') :: dtail) ((q, ptrq) :: rest) rem
            = .reset
              (lookaheadLoop text current ((p, ptrp') :: (dtail ++ (q, ptrq) :: rest))
                (q, current, sk)).1
              (lookaheadLoop text current ((p, ptrp') :: (dtail ++ (q, ptrq) :: rest))
                (q, current, sk)).2.1
              (lookaheadLoop text current ((p, ptrp') :: (dtail ++ (q, ptrq) :: rest))
                (q, current, sk)).2.2 := by
          simp [statesLoop, hqt]
        rw [hstep]
        have hocc := lookahead_occ root text p E hE hterm hwalkable hnoext
          (dtail ++ (q, ptrq) :: rest) ptrp' q current sk current (by omega) (by omega)
          (by rw [if_pos hpq]; exact hwp') (by rw [if_pos hpq]; exact hc1E)
          (by
            intro k hk
            rw [keysOf_append, keysOf_cons] at hk
            rcases List.mem_append.mp hk with h1 | h1
            · exact hkeys k (by rw [keysOf_append]; exact List.mem_append.mpr (Or.inl h1))
            · rcases List.mem_cons.mp h1 with rfl | h2
              · exact hpq
              · refine hkeys k ?_
                rw [keysOf_append, keysOf_cons]
                exact List.mem_append.mpr (Or.inr (List.mem_cons_of_mem _ h2)))
        rw [hocc]
      · have hterm2 : ptrq.term = false := by simpa using hqt
        cases hfq : ptrq.find? cc with
        | some ptrq2 =>
            have hQq2 : root.walk? (sliceTxt text q (current + 1)) = some ptrq2 := by
              rw [sliceTxt_snoc (by omega) hdrop, walk?_append, hQq]
              show ptrq.walk? [cc] = some ptrq2
              rw [walk?_singleton, hfq]
            have hstep : statesLoop text current cc sk ((p, ptrp') :: dtail)
                ((q, ptrq) :: rest) rem
                = statesLoop text current cc sk ((p, ptrp') :: (dtail ++ [(q, ptrq2)])) rest rem := by
              simp [statesLoop, hterm2, hfq]
            rw [hstep]
            have hres := ih (dtail ++ [(q, ptrq2)]) rem
              (by
                intro k hk
                rw [keysOf_append] at hk
                rcases List.mem_append.mp hk with h1 | h1
                · rw [keysOf_append, keysOf_cons] at h1
                  rcases List.mem_append.mp h1 with h2 | h2
                  · refine hkeys k ?_
                    rw [keysOf_append]
                    exact List.mem_append.mpr (Or.inl h2)
                  · have h3 : k = q := by simpa [keysOf_cons, keysOf_nil] using h2
                    subst h3
                    exact hpq
                · refine hkeys k ?_
                  rw [keysOf_append, keysOf_cons]
                  exact List.mem_append.mpr (Or.inr (List.mem_cons_of_mem _ h1))
              )
              (by
                intro pr hpr hnr
                rcases List.mem_cons.mp hpr with rfl | h1
                · exact hQd _ (List.mem_cons_self _ _) hnr
                · rcases List.mem_append.mp h1 with h2 | h2
                  · exact hQd pr (List.mem_cons_of_mem _ h2) hnr
                  · have h3 : pr = (q, ptrq2) := by simpa using h2
                    subst h3
                    exact hQq2)
              (fun pr hpr => hQp pr (List.mem_cons_of_mem _ hpr))
              (fun k hk => hkub k (by rw [keysOf_cons]; exact List.mem_cons_of_mem _ hk))
              hrem
            rcases hres with ⟨ns, rem', heq, ⟨tail, htail⟩, hrem', hQ⟩ | heq
            · refine Or.inl ⟨ns, rem', heq, ⟨(q, ptrq2) :: tail, ?_⟩, hrem', hQ⟩
              rw [htail]
              simp
            · exact Or.inr heq
        | none =>
            have hstep : statesLoop text current cc sk ((p, ptrp') :: dtail)
                ((q, ptrq) :: rest) rem
                = statesLoop text current cc sk ((p, ptrp') :: (dtail ++ [(q, ptrq)])) rest
                    (rem ++ [q]) := by
              simp [statesLoop, hterm2, hfq]
            rw [hstep]
            have hres := ih (dtail ++ [(q, ptrq)]) (rem ++ [q])
              (by
                intro k hk
                rw [keysOf_append] at hk
                rcases List.mem_append.mp hk with h1 | h1
                · rw [keysOf_append, keysOf_cons] at h1
                  rcases List.mem_append.mp h1 with h2 | h2
                  · refine hkeys k ?_
                    rw [keysOf_append]
                    exact List.mem_append.mpr (Or.inl h2)
                  · have h3 : k = q := by simpa [keysOf_cons, keysOf_nil] using h2
                    subst h3
                    exact hpq
                · refine hkeys k ?_
                  rw [keysOf_append, keysOf_cons]
                  exact List.mem_append.mpr (Or.inr (List.mem_cons_of_mem _ h1))
              )
              (by
                intro pr hpr hnr
                have hnr2 : ¬ pr.1 ∈ rem := fun hc => hnr (List.mem_append.mpr (Or.inl hc))
                rcases List.mem_cons.mp hpr with rfl | h1
                · exact hQd _ (List.mem_cons_self _ _) hnr2
                · rcases List.mem_append.mp h1 with h2 | h2
                  · exact hQd pr (List.mem_cons_of_mem _ h2) hnr2
                  · exfalso
                    have h3 : pr = (q, ptrq) := by simpa using h2
                    subst h3
                    exact hnr (List.mem_append.mpr (Or.inr (by simp)))
              )
              (fun pr hpr => hQp pr (List.mem_cons_of_mem _ hpr))
              (fun k hk => hkub k (by rw [keysOf_cons]; exact List.mem_cons_of_mem _ hk))
              (by
                intro x hx
                rcases List.mem_append.mp hx with h1 | h1
                · exact hrem x h1
                · have h2 : x = q := by simpa using h1
                  subst h2
                  exact hpq)
            rcases hres with ⟨ns, rem', heq, ⟨tail, htail⟩, hrem', hQ⟩ | heq
            · refine Or.inl ⟨ns, rem', heq, ⟨(q, ptrq) :: tail, ?_⟩, hrem', hQ⟩
              rw [htail]
              simp
            · exact Or.inr heq

/-- Full states pass in phase B: the occurrence's entry `(p, ptrp)` heads the
dict.  Either some terminal resolves (through the lookahead) to the cut pair
`(p, E)`, or all pointers advance with the occurrence's entry still at the
head. -/
theorem statesLoop_occB (root : TrieNode) (text : List Char) (p E : Nat)
    (hE : E ≤ text.length)
    (hterm : memWalk root (sliceTxt text p E) = true)
    (hwalkable : ∀ m, p ≤ m → m ≤ E → (root.walk? (sliceTxt text p m)).isSome = true)
    (hnoext : ∀ m, E < m → m ≤ text.length → memWalk root (sliceTxt text p m) = false)
    (current : Nat) (cc : Char) (sk : Nat) (rest0 : List Char)
    (hdrop : text.drop current = cc :: rest0)
    (hpc : p < current) (hcE : current ≤ E)
    (others : List (Nat × TrieNode)) (ptrp : TrieNode)
    (hwp : root.walk? (sliceTxt text p current) = some ptrp)
    (hQo : ∀ pr ∈ others, root.walk? (sliceTxt text pr.1 current) = some pr.2)
    (hko : ∀ k ∈ keysOf others, p < k)
    (hkuo : ∀ k ∈ keysOf others, k < current) :
    ((∃ ns rem', statesLoop text current cc sk [] ((p, ptrp) :: others) [] = .advance ns rem' ∧
      (∃ ptrp' tail, ns = (p, ptrp') :: tail ∧
        root.walk? (sliceTxt text p (current + 1)) = some ptrp' ∧ ¬ p ∈ rem' ∧
        (∀ pr ∈ ns, ¬ pr.1 ∈ rem' →
          root.walk? (sliceTxt text pr.1 (current + 1)) = some pr.2))) ∨
    statesLoop text current cc sk [] ((p, ptrp) :: others) [] = .reset p E E) := by
  by_cases htp : ptrp.term = true
  · right
    have hstep : statesLoop text current cc sk [] ((p, ptrp) :: others) []
        = .reset (lookaheadLoop text current ((p, ptrp) :: others) (p, current, sk)).1
            (lookaheadLoop text current ((p, ptrp) :: others) (p, current, sk)).2.1
            (lookaheadLoop text current ((p, ptrp) :: others) (p, current, sk)).2.2 := by
      simp [statesLoop, htp]
    rw [hstep]
    have hocc := lookahead_occ root text p E hE hterm hwalkable hnoext others ptrp p current sk
      current (le_refl p) (by omega)
      (by rw [if_neg (lt_irrefl p)]; exact hwp) (by rw [if_neg (lt_irrefl p)]; exact hcE) hko
    rw [hocc]
  · have htp2 : ptrp.term = false := by simpa using htp
    have hcltE : current < E := by
      rcases Nat.lt_or_ge current E with h | h
      · exact h
      · exfalso
        have hcurE : current = E := by omega
        have := memWalk_of_walk hwp
        rw [hcurE] at this
        rw [hterm] at this
        rw [htp2] at this
        exact absurd this (by simp)
    have hsome : (root.walk? (sliceTxt text p (current + 1))).isSome = true :=
      hwalkable (current + 1) (by omega) (by omega)
    obtain ⟨ptrp', hwp'⟩ := Option.isSome_iff_exists.mp hsome
    have hfind : ptrp.find? cc = some ptrp' := by
      rw [sliceTxt_snoc (by omega) hdrop, walk?_append, hwp] at hwp'
      rw [← walk?_singleton]
      exact hwp'
    have hstep : statesLoop text current cc sk [] ((p, ptrp) :: others) []
        = statesLoop text current cc sk ((p, ptrp') :: []) others [] := by
      simp [statesLoop, htp2, hfind]
    rw [hstep]
    have hres := statesLoop_occB_tail root text p E hE hterm hwalkable hnoext current cc sk
      rest0 hdrop hpc (by omega) ptrp' hwp' others [] []
      (by simpa using hko)
      (by
        intro pr hpr _
        have h2 : pr = (p, ptrp') := by simpa using hpr
        subst h2
        exact hwp')
      hQo hkuo (by simp)
    rcases hres with ⟨ns, rem', heq, ⟨tail, htail⟩, hrem', hQ⟩ | heq
    · refine Or.inl ⟨ns, rem', heq, ptrp', tail, by simpa using htail, hwp', ?_, hQ⟩
      intro hc
      exact absurd rfl (Nat.ne_of_lt (hrem' p hc))
    · exact Or.inr heq

theorem sliceTxt_single {text rest : List Char} {i : Nat} {c : Char}
    (hdrop : text.drop i = c :: rest) : sliceTxt text i (i + 1) = [c] := by
  unfold sliceTxt
  rw [hdrop]
  simp

theorem walk_single {root : TrieNode} {text rest : List Char} {i : Nat} {c : Char}
    (hdrop : text.drop i = c :: rest) :
    root.walk? (sliceTxt text i (i + 1)) = root.find? c := by
  rw [sliceTxt_single hdrop, walk?_singleton]

theorem regStep_offsets (root : TrieNode) (current : Nat) (cc : Char) (st1 : SState) :
    (regStep root current cc st1).offsets = st1.offsets ∧
    (regStep root current cc st1).skip = st1.skip := by
  unfold regStep
  cases hf : root.find? cc with
  | none => exact ⟨rfl, rfl⟩
  | some child =>
      simp only []
      by_cases hg : st1.skip ≤ current
      · rw [if_pos hg]
        exact ⟨rfl, rfl⟩
      · rw [if_neg hg]
        exact ⟨rfl, rfl⟩

theorem regStep_states (root : TrieNode) (current : Nat) (cc : Char) (st1 : SState) :
    (regStep root current cc st1).states = st1.states ∨
    (∃ child, root.find? cc = some child ∧ st1.skip ≤ current ∧
      (regStep root current cc st1).states = st1.states ++ [(current, child)]) := by
  cases hf : root.find? cc with
  | none =>
      left
      unfold regStep
      rw [hf]
  | some child =>
      by_cases hg : st1.skip ≤ current
      · right
        refine ⟨child, rfl, hg, ?_⟩
        unfold regStep
        rw [hf]
        simp only []
        rw [if_pos hg]
      · left
        unfold regStep
        rw [hf]
        simp only []
        rw [if_neg hg]

theorem mem_of_mem_filter_keys {ns : List (Nat × TrieNode)} {rem : List Nat}
    {pr : Nat × TrieNode} (h : pr ∈ ns.filter (fun q => ¬ q.1 ∈ rem)) :
    pr ∈ ns ∧ ¬ pr.1 ∈ rem := by
  have h2 := List.mem_filter.mp h
  refine ⟨h2.1, ?_⟩
  have := h2.2
  simpa using this

/-- Phase A/at-`p` step: while no vocabulary word ends at or before `p`, no
state is terminal, so the offsets stay `[0]`, `skip` stays `0`, and all
surviving states point along the text. -/
theorem charStepA (root : TrieNode) (text : List Char) (p : Nat)
    (Hprior : ∀ q m, q < m → m ≤ p → memWalk root (sliceTxt text q m) = false)
    (i : Nat) (hip : i ≤ p) (cc : Char) (rest0 : List Char)
    (hdrop : text.drop i = cc :: rest0) (st : SState)
    (hoffs : st.offsets = [0]) (hskip : st.skip = 0)
    (hPT : ∀ pr ∈ st.states,
      root.walk? (sliceTxt text pr.1 i) = some pr.2 ∧ pr.1 < i) :
    (charStep root text st i cc).offsets = [0] ∧ (charStep root text st i cc).skip = 0 ∧
    (∀ pr ∈ (charStep root text st i cc).states,
      root.walk? (sliceTxt text pr.1 (i + 1)) = some pr.2 ∧ pr.1 < i + 1) := by
  have hterm : ∀ pr ∈ st.states, pr.2.term = false := by
    intro pr hpr
    have hk : pr.1 < i := (hPT pr hpr).2
    rw [← memWalk_of_walk (hPT pr hpr).1]
    exact Hprior pr.1 i hk hip
  have hQp : ∀ pr ∈ st.states, ∀ ptr', pr.2.find? cc = some ptr' →
      root.walk? (sliceTxt text pr.1 (i + 1)) = some ptr' ∧ pr.1 < i + 1 := by
    intro pr hpr ptr' hf
    have hk : pr.1 < i := (hPT pr hpr).2
    refine ⟨?_, by omega⟩
    rw [sliceTxt_snoc (by omega) hdrop, walk?_append, (hPT pr hpr).1]
    show pr.2.walk? [cc] = some ptr'
    rw [walk?_singleton, hf]
  obtain ⟨ns, rem', heq, _, _, _, hQ⟩ :=
    statesLoop_noterm text i cc st.skip
      (fun pr => root.walk? (sliceTxt text pr.1 (i + 1)) = some pr.2 ∧ pr.1 < i + 1)
      st.states [] [] hterm (by simp) hQp
  have hguard : ¬ (st.skip ≠ 0 ∧ i < st.skip) := by
    rw [hskip]
    simp
  have hstep : charStep root text st i cc =
      regStep root i cc ⟨ns.filter (fun q => ¬ q.1 ∈ rem'), st.offsets, st.skip⟩ := by
    unfold charStep
    rw [if_neg hguard, heq]
  rw [hstep]
  obtain ⟨ho, hs⟩ := regStep_offsets root i cc ⟨ns.filter (fun q => ¬ q.1 ∈ rem'), st.offsets, st.skip⟩
  refine ⟨by rw [ho]; exact hoffs, by rw [hs]; exact hskip, ?_⟩
  intro pr hpr
  rcases regStep_states root i cc ⟨ns.filter (fun q => ¬ q.1 ∈ rem'), st.offsets, st.skip⟩
    with h1 | ⟨child, hchild, _, h1⟩
  · rw [h1] at hpr
    obtain ⟨h2, h3⟩ := mem_of_mem_filter_keys hpr
    exact hQ pr h2 h3
  · rw [h1] at hpr
    rcases List.mem_append.mp hpr with h2 | h2
    · obtain ⟨h3, h4⟩ := mem_of_mem_filter_keys h2
      exact hQ pr h3 h4
    · have h3 : pr = (i, child) := by simpa using h2
      subst h3
      refine ⟨?_, Nat.lt_succ_self i⟩
      rw [walk_single hdrop]
      exact hchild

/-- An `advance` outcome of the states loop never changes the keys: pointers
are updated in place, dropped entries are only marked in `to_remove`. -/
theorem statesLoop_advance_keys (text : List Char) (current : Nat) (cc : Char) (sk : Nat) :
    ∀ (pending done : List (Nat × TrieNode)) (rem : List Nat)
      (ns : List (Nat × TrieNode)) (rem' : List Nat),
      statesLoop text current cc sk done pending rem = .advance ns rem' →
      keysOf ns = keysOf (done ++ pending) := by
  intro pending
  induction pending with
  | nil =>
      intro done rem ns rem' h
      have h2 : done = ns := by
        have h3 : StepOut.advance done rem = .advance ns rem' := by
          rw [← h]
          simp [statesLoop]
        injection h3 with h4 h5
      rw [← h2]
      simp
  | cons hd rest ih =>
      obtain ⟨start, ptr⟩ := hd
      intro done rem ns rem' h
      by_cases ht : ptr.term = true
      · exfalso
        have hstep : statesLoop text current cc sk done ((start, ptr) :: rest) rem =
            .reset (lookaheadLoop text current (done ++ (start, ptr) :: rest) (start, current, sk)).1
              (lookaheadLoop text current (done ++ (start, ptr) :: rest) (start, current, sk)).2.1
              (lookaheadLoop text current (done ++ (start, ptr) :: rest) (start, current, sk)).2.2 := by
          simp [statesLoop, ht]
        rw [hstep] at h
        exact StepOut.noConfusion h
      · have hkeq : ∀ x : TrieNode,
            keysOf ((done ++ [(start, x)]) ++ rest) = keysOf (done ++ (start, ptr) :: rest) := by
          intro x
          simp [keysOf]
        cases hf : ptr.find? cc with
        | some ptr' =>
            have hstep : statesLoop text current cc sk done ((start, ptr) :: rest) rem =
                statesLoop text current cc sk (done ++ [(start, ptr')]) rest rem := by
              simp [statesLoop, ht, hf]
            rw [hstep] at h
            exact (ih (done ++ [(start, ptr')]) rem ns rem' h).trans (hkeq ptr')
        | none =>
            have hstep : statesLoop text current cc sk done ((start, ptr) :: rest) rem =
                statesLoop text current cc sk (done ++ [(start, ptr)]) rest (rem ++ [start]) := by
              simp [statesLoop, ht, hf]
            rw [hstep] at h
            exact (ih (done ++ [(start, ptr)]) (rem ++ [start]) ns rem' h).trans (hkeq ptr)

/-- Phase A of an isolated occurrence at `p`: before reaching `p`, the scan
never fires, so at `p` the offsets are still `[0]`, `skip` is `0`, and every
surviving state walks a slice of the text ending at `p`. -/
theorem runSplitA (root : TrieNode) (text : List Char) (p : Nat)
    (Hprior : ∀ q m, q < m → m ≤ p → memWalk root (sliceTxt text q m) = false) :
    ∀ (cur : List Char) (i : Nat) (st : SState),
      text.drop i = cur ++ text.drop p → i + cur.length = p →
      st.offsets = [0] → st.skip = 0 →
      (∀ pr ∈ st.states, root.walk? (sliceTxt text pr.1 i) = some pr.2 ∧ pr.1 < i) →
      (runSplit root text i cur st).offsets = [0] ∧
      (runSplit root text i cur st).skip = 0 ∧
      (∀ pr ∈ (runSplit root text i cur st).states,
        root.walk? (sliceTxt text pr.1 p) = some pr.2 ∧ pr.1 < p) := by
  intro cur
  induction cur with
  | nil =>
      intro i st _ hlen hoffs hskip hPT
      have hip : i = p := by simpa using hlen
      subst hip
      exact ⟨hoffs, hskip, hPT⟩
  | cons c rest ih =>
      intro i st hdrop hlen hoffs hskip hPT
      have hip : i ≤ p := by
        simp only [List.length_cons] at hlen
        omega
      have hdrop2 : text.drop i = c :: (rest ++ text.drop p) := by
        rw [hdrop]
        simp
      obtain ⟨h1, h2, h3⟩ := charStepA root text p Hprior i hip c (rest ++ text.drop p)
        hdrop2 st hoffs hskip hPT
      show _ ∧ _ ∧ _
      refine ih (i + 1) (charStep root text st i c) ?_ ?_ h1 h2 h3
      · exact drop_succ_of_cons hdrop2
      · simp only [List.length_cons] at hlen
        omega

/-- The step at `p` itself: every older partial match dies (no vocabulary
word both ends by `p` and none survives across `p`), and the occurrence's
own entry `(p, child)` is registered, leaving it alone in the dict. -/
theorem charStepP (root : TrieNode) (text : List Char) (p : Nat)
    (Hprior : ∀ q m, q < m → m ≤ p → memWalk root (sliceTxt text q m) = false)
    (Hcross : ∀ q, q < p → root.walk? (sliceTxt text q (p + 1)) = none)
    (hwalk1 : (root.walk? (sliceTxt text p (p + 1))).isSome = true)
    (cc : Char) (rest0 : List Char) (hdrop : text.drop p = cc :: rest0) (st : SState)
    (hoffs : st.offsets = [0]) (hskip : st.skip = 0)
    (hPT : ∀ pr ∈ st.states, root.walk? (sliceTxt text pr.1 p) = some pr.2 ∧ pr.1 < p) :
    ∃ child, root.walk? (sliceTxt text p (p + 1)) = some child ∧
      charStep root text st p cc = ⟨[(p, child)], [0], 0⟩ := by
  obtain ⟨child, hchild⟩ := Option.isSome_iff_exists.mp hwalk1
  have hfind : root.find? cc = some child := by
    rw [← walk_single hdrop]
    exact hchild
  refine ⟨child, hchild, ?_⟩
  have hterm : ∀ pr ∈ st.states, pr.2.term = false := by
    intro pr hpr
    rw [← memWalk_of_walk (hPT pr hpr).1]
    exact Hprior pr.1 p (hPT pr hpr).2 (le_refl p)
  have hQp : ∀ pr ∈ st.states, ∀ ptr', pr.2.find? cc = some ptr' → False := by
    intro pr hpr ptr' hf
    have hk : pr.1 < p := (hPT pr hpr).2
    have hw : root.walk? (sliceTxt text pr.1 (p + 1)) = some ptr' := by
      rw [sliceTxt_snoc (by omega) hdrop, walk?_append, (hPT pr hpr).1]
      show pr.2.walk? [cc] = some ptr'
      rw [walk?_singleton, hf]
    rw [Hcross pr.1 hk] at hw
    exact Option.noConfusion hw
  obtain ⟨ns, rem', heq, _, _, _, hQ⟩ :=
    statesLoop_noterm text p cc st.skip (fun _ => False)
      st.states [] [] hterm (by simp) hQp
  have hfil : ns.filter (fun q => ¬ q.1 ∈ rem') = [] := by
    refine List.eq_nil_iff_forall_not_mem.mpr ?_
    intro pr hpr
    obtain ⟨h2, h3⟩ := mem_of_mem_filter_keys hpr
    exact hQ pr h2 h3
  have hguard : ¬ (st.skip ≠ 0 ∧ p < st.skip) := by
    rw [hskip]
    simp
  have hstep : charStep root text st p cc =
      regStep root p cc ⟨ns.filter (fun q => ¬ q.1 ∈ rem'), st.offsets, st.skip⟩ := by
    unfold charStep
    rw [if_neg hguard, heq]
  rw [hstep, hfil, hoffs, hskip]
  unfold regStep
  rw [hfind]
  simp only []
  rw [if_pos (Nat.zero_le p)]
  simp

/-- Phase-B invariant: after the occurrence at `p` registers, its entry
stays at the head of the dict, no cut has fired yet, and every entry walks
its slice of the text. -/
structure BInv (root : TrieNode) (text : List Char) (p i : Nat) (st : SState) : Prop where
  offs : st.offsets = [0]
  skip : st.skip = 0
  shape : ∃ ptrp others, st.states = (p, ptrp) :: others ∧
    root.walk? (sliceTxt text p i) = some ptrp ∧
    (∀ pr ∈ others, root.walk? (sliceTxt text pr.1 i) = some pr.2) ∧
    (∀ k ∈ keysOf others, p < k ∧ k < i)

/-- One character of phase B: while `p < i ≤ E`, either the invariant
carries to `i + 1` (necessarily `i < E`), or some entry fires and the
lookahead resolves the cut to exactly `(p, E)`. -/
theorem charStepB (root : TrieNode) (text : List Char) (p E : Nat)
    (hE : E ≤ text.length)
    (hterm : memWalk root (sliceTxt text p E) = true)
    (hwalkable : ∀ m, p ≤ m → m ≤ E → (root.walk? (sliceTxt text p m)).isSome = true)
    (hnoext : ∀ m, E < m → m ≤ text.length → memWalk root (sliceTxt text p m) = false)
    (i : Nat) (cc : Char) (rest0 : List Char) (hdrop : text.drop i = cc :: rest0)
    (hpi : p < i) (hiE : i ≤ E) (st : SState) (hB : BInv root text p i st) :
    (i < E ∧ BInv root text p (i + 1) (charStep root text st i cc)) ∨
    ((charStep root text st i cc).offsets = [0, p, E] ∧
     (charStep root text st i cc).skip = E) := by
  obtain ⟨ptrp, others, hshape, hwp, hQo, hko⟩ := hB.shape
  have hguard : ¬ (st.skip ≠ 0 ∧ i < st.skip) := by
    rw [hB.skip]
    simp
  rcases statesLoop_occB root text p E hE hterm hwalkable hnoext i cc st.skip rest0 hdrop
      hpi hiE others ptrp hwp hQo (fun k hk => (hko k hk).1) (fun k hk => (hko k hk).2)
    with ⟨ns, rem', heq, ptrp', tail, hns, hwp', hnp, hQ⟩ | heq
  · left
    have hiltE : i < E := by
      rcases Nat.lt_or_ge i E with h | h
      · exact h
      · exfalso
        have hiE2 : i = E := by omega
        have htp : ptrp.term = true := by
          have h2 := memWalk_of_walk hwp
          rw [hiE2, hterm] at h2
          exact h2.symm
        have hfire : statesLoop text i cc st.skip [] ((p, ptrp) :: others) [] =
            .reset (lookaheadLoop text i ([] ++ (p, ptrp) :: others) (p, i, st.skip)).1
              (lookaheadLoop text i ([] ++ (p, ptrp) :: others) (p, i, st.skip)).2.1
              (lookaheadLoop text i ([] ++ (p, ptrp) :: others) (p, i, st.skip)).2.2 := by
          simp [statesLoop, htp]
        rw [hfire] at heq
        exact StepOut.noConfusion heq
    refine ⟨hiltE, ?_, ?_, ?_⟩
    · have hstep : charStep root text st i cc =
          regStep root i cc ⟨ns.filter (fun q => ¬ q.1 ∈ rem'), st.offsets, st.skip⟩ := by
        unfold charStep
        rw [if_neg hguard, hshape, heq]
      rw [hstep]
      rw [(regStep_offsets root i cc _).1]
      exact hB.offs
    · have hstep : charStep root text st i cc =
          regStep root i cc ⟨ns.filter (fun q => ¬ q.1 ∈ rem'), st.offsets, st.skip⟩ := by
        unfold charStep
        rw [if_neg hguard, hshape, heq]
      rw [hstep]
      rw [(regStep_offsets root i cc _).2]
      exact hB.skip
    · have hkeys : keysOf ns = p :: keysOf others := by
        have h1 := statesLoop_advance_keys text i cc st.skip ((p, ptrp) :: others) [] [] ns rem' heq
        simpa [keysOf_cons] using h1
      have hkeystail : keysOf tail = keysOf others := by
        have h2 : keysOf ns = p :: keysOf tail := by
          rw [hns]
          simp [keysOf]
        rw [h2] at hkeys
        exact (List.cons.inj hkeys).2
      have hfil : ns.filter (fun q => ¬ q.1 ∈ rem') =
          (p, ptrp') :: tail.filter (fun q => ¬ q.1 ∈ rem') := by
        rw [hns]
        rw [List.filter_cons_of_pos (by simpa using hnp)]
      have hstep : charStep root text st i cc =
          regStep root i cc ⟨ns.filter (fun q => ¬ q.1 ∈ rem'), st.offsets, st.skip⟩ := by
        unfold charStep
        rw [if_neg hguard, hshape, heq]
      have htailQ : ∀ pr ∈ tail.filter (fun q => ¬ q.1 ∈ rem'),
          root.walk? (sliceTxt text pr.1 (i + 1)) = some pr.2 ∧ p < pr.1 ∧ pr.1 < i + 1 := by
        intro pr hpr
        obtain ⟨h2, h3⟩ := mem_of_mem_filter_keys hpr
        have hmem : pr ∈ ns := by
          rw [hns]
          exact List.mem_cons_of_mem _ h2
        have hkey : pr.1 ∈ keysOf others := by
          rw [← hkeystail]
          exact List.mem_map_of_mem Prod.fst h2
        have hb := hko pr.1 hkey
        exact ⟨hQ pr hmem h3, hb.1, by omega⟩
      rcases regStep_states root i cc ⟨ns.filter (fun q => ¬ q.1 ∈ rem'), st.offsets, st.skip⟩
        with h1 | ⟨child, hchild, _, h1⟩
      · rw [hstep]
        refine ⟨ptrp', tail.filter (fun q => ¬ q.1 ∈ rem'), ?_, hwp', ?_, ?_⟩
        · rw [h1]
          exact hfil
        · exact fun pr hpr => (htailQ pr hpr).1
        · intro k hk
          obtain ⟨pr, hpr, hpr2⟩ := List.mem_map.mp hk
          obtain ⟨hq1, hq2, hq3⟩ := htailQ pr hpr
          rw [← hpr2]
          exact ⟨hq2, hq3⟩
      · rw [hstep]
        refine ⟨ptrp', tail.filter (fun q => ¬ q.1 ∈ rem') ++ [(i, child)], ?_, hwp', ?_, ?_⟩
        · rw [h1]
          show _ = ((p, ptrp') :: tail.filter (fun q => ¬ q.1 ∈ rem')) ++ [(i, child)]
          rw [hfil]
        · intro pr hpr
          rcases List.mem_append.mp hpr with h2 | h2
          · exact (htailQ pr h2).1
          · have h3 : pr = (i, child) := by simpa using h2
            subst h3
            rw [walk_single hdrop]
            exact hchild
        · intro k hk
          rw [keysOf_append] at hk
          rcases List.mem_append.mp hk with h2 | h2
          · obtain ⟨pr, hpr, hpr2⟩ := List.mem_map.mp h2
            obtain ⟨hq1, hq2, hq3⟩ := htailQ pr hpr
            rw [← hpr2]
            exact ⟨hq2, hq3⟩
          · have h3 : k = i := by simpa [keysOf] using h2
            subst h3
            exact ⟨hpi, by omega⟩
  · right
    have hstep : charStep root text st i cc =
        regStep root i cc ⟨[], st.offsets ++ [p, E], E⟩ := by
      unfold charStep
      rw [if_neg hguard, hshape, heq]
    rw [hstep]
    obtain ⟨ho, hs⟩ := regStep_offsets root i cc ⟨[], st.offsets ++ [p, E], E⟩
    refine ⟨?_, hs⟩
    rw [ho]
    show st.offsets ++ [p, E] = [0, p, E]
    rw [hB.offs]
    rfl

/-- A single main-loop step only ever appends to the offsets list. -/
theorem charStep_offsets_extend (root : TrieNode) (text : List Char) (st : SState)
    (i : Nat) (cc : Char) :
    ∃ B, (charStep root text st i cc).offsets = st.offsets ++ B := by
  unfold charStep
  by_cases hg : st.skip ≠ 0 ∧ i < st.skip
  · rw [if_pos hg]
    exact ⟨[], by simp⟩
  · rw [if_neg hg]
    cases hout : statesLoop text i cc st.skip [] st.states [] with
    | reset s e sk =>
        refine ⟨[s, e], ?_⟩
        rw [(regStep_offsets root i cc ⟨[], st.offsets ++ [s, e], sk⟩).1]
    | advance ns rem =>
        refine ⟨[], ?_⟩
        rw [(regStep_offsets root i cc ⟨ns.filter (fun q => ¬ q.1 ∈ rem), st.offsets,
          st.skip⟩).1]
        simp

/-- The whole remaining scan only ever appends to the offsets list. -/
theorem runSplit_offsets_extend (root : TrieNode) (text : List Char) :
    ∀ (cur : List Char) (i : Nat) (st : SState),
      ∃ B, (runSplit root text i cur st).offsets = st.offsets ++ B := by
  intro cur
  induction cur with
  | nil =>
      intro i st
      exact ⟨[], by simp [runSplit]⟩
  | cons c rest ih =>
      intro i st
      obtain ⟨B1, h1⟩ := charStep_offsets_extend root text st i c
      obtain ⟨B2, h2⟩ := ih (i + 1) (charStep root text st i c)
      refine ⟨B1 ++ B2, ?_⟩
      show (runSplit root text (i + 1) rest (charStep root text st i c)).offsets = _
      rw [h2, h1, List.append_assoc]

/-- The end-of-text pass only ever appends to the offsets list. -/
theorem endStates_offsets_extend (n : Nat) :
    ∀ (sts : List (Nat × TrieNode)) (offs : List Nat),
      ∃ B, endStates n sts offs = offs ++ B := by
  intro sts
  induction sts with
  | nil =>
      intro offs
      exact ⟨[], by simp [endStates]⟩
  | cons pr rest ih =>
      obtain ⟨s, ptr⟩ := pr
      intro offs
      by_cases ht : ptr.term = true
      · exact ⟨[s, n], by simp [endStates, ht]⟩
      · obtain ⟨B, hB⟩ := ih offs
        refine ⟨B, ?_⟩
        rw [show endStates n ((s, ptr) :: rest) offs = endStates n rest offs from by
          simp [endStates, ht]]
        exact hB

/-- Fragments already emitted stay in the output of a successful cut. -/
theorem cutLoop_mem (text : List Char) :
    ∀ (offs : List Nat) (s : Nat) (acc toks : List (List Char)),
      cutLoop text offs s acc = .ok toks → ∀ x ∈ acc, x ∈ toks := by
  intro offs
  induction offs with
  | nil =>
      intro s acc toks h x hx
      have h2 : Except.ok (ε := Unit) acc = .ok toks := by
        rw [← h]
        simp [cutLoop]
      injection h2 with h3
      rw [← h3]
      exact hx
  | cons e rest ih =>
      intro s acc toks h x hx
      by_cases h1 : s > e
      · rw [show cutLoop text (e :: rest) s acc = .error () from by simp [cutLoop, h1]] at h
        exact Except.noConfusion h
      · by_cases h2 : s = e
        · rw [show cutLoop text (e :: rest) s acc = cutLoop text rest s acc from by
            simp [cutLoop, h1, h2]] at h
          exact ih s acc toks h x hx
        · rw [show cutLoop text (e :: rest) s acc
              = cutLoop text rest e (acc ++ [sliceTxt text s e]) from by
            simp [cutLoop, h1, h2]] at h
          exact ih e (acc ++ [sliceTxt text s e]) toks h x (List.mem_append.mpr (Or.inl hx))

/-- Splitting the scan of the text at an intermediate index. -/
theorem runSplit_append (root : TrieNode) (text : List Char) :
    ∀ (a b : List Char) (i : Nat) (st : SState),
      runSplit root text i (a ++ b) st
        = runSplit root text (i + a.length) b (runSplit root text i a st) := by
  intro a
  induction a with
  | nil =>
      intro b i st
      simp [runSplit]
  | cons c rest ih =>
      intro b i st
      show runSplit root text (i + 1) (rest ++ b) (charStep root text st i c) = _
      rw [ih b (i + 1) (charStep root text st i c)]
      have hlen : i + 1 + rest.length = i + (c :: rest).length := by
        simp only [List.length_cons]
        omega
      rw [hlen]
      rfl

/-- Phase B and beyond: from the state right after the occurrence registers,
the final offsets (after the end-of-text pass) start with `[0, p, E]`. -/
theorem runSplitB (root : TrieNode) (text : List Char) (p E : Nat)
    (hE : E ≤ text.length)
    (hterm : memWalk root (sliceTxt text p E) = true)
    (hwalkable : ∀ m, p ≤ m → m ≤ E → (root.walk? (sliceTxt text p m)).isSome = true)
    (hnoext : ∀ m, E < m → m ≤ text.length → memWalk root (sliceTxt text p m) = false) :
    ∀ (cur : List Char) (i : Nat) (st : SState),
      text.drop i = cur → p < i → i ≤ E → BInv root text p i st →
      ∃ B, endStates text.length (runSplit root text i cur st).states
             (runSplit root text i cur st).offsets = [0, p, E] ++ B := by
  intro cur
  induction cur with
  | nil =>
      intro i st hdrop hpi hiE hB
      have hlen : text.length ≤ i := by
        have h2 := congrArg List.length hdrop
        simp at h2
        omega
      have hiE2 : i = E := by omega
      have hEn : E = text.length := by omega
      obtain ⟨ptrp, others, hshape, hwp, _, _⟩ := hB.shape
      have htp : ptrp.term = true := by
        have h2 := memWalk_of_walk hwp
        rw [hiE2, hterm] at h2
        exact h2.symm
      refine ⟨[], ?_⟩
      show endStates text.length st.states st.offsets = [0, p, E]
      rw [hshape, hB.offs]
      rw [show endStates text.length ((p, ptrp) :: others) [0] = [0] ++ [p, text.length] from by
        simp [endStates, htp]]
      rw [← hEn]
      rfl
  | cons c rest ih =>
      intro i st hdrop hpi hiE hB
      rcases charStepB root text p E hE hterm hwalkable hnoext i c rest hdrop hpi hiE st hB
        with ⟨hiltE, hB'⟩ | ⟨hoffs, hskip⟩
      · have hdrop' : text.drop (i + 1) = rest := drop_succ_of_cons hdrop
        exact ih (i + 1) (charStep root text st i c) hdrop' (by omega) (by omega) hB'
      · obtain ⟨B1, hB1⟩ := runSplit_offsets_extend root text rest (i + 1)
          (charStep root text st i c)
        obtain ⟨B2, hB2⟩ := endStates_offsets_extend text.length
          (runSplit root text (i + 1) rest (charStep root text st i c)).states
          (runSplit root text (i + 1) rest (charStep root text st i c)).offsets
      
        refine ⟨B1 ++ B2, ?_⟩
        show endStates text.length
          (runSplit root text (i + 1) rest (charStep root text st i c)).states
          (runSplit root text (i + 1) rest (charStep root text st i c)).offsets = _
        rw [hB2, hB1, hoffs]
        simp [List.append_assoc]

theorem cutLoop_cons_lt (text : List Char) (e : Nat) (rest : List Nat) (s : Nat)
    (acc : List (List Char)) (h : s < e) :
    cutLoop text (e :: rest) s acc = cutLoop text rest e (acc ++ [sliceTxt text s e]) := by
  show (if s > e then Except.error () else if s = e then cutLoop text rest s acc
      else cutLoop text rest e (acc ++ [sliceTxt text s e])) = _
  rw [if_neg (by omega), if_neg (by omega)]

theorem cutLoop_cons_self (text : List Char) (e : Nat) (rest : List Nat)
    (acc : List (List Char)) :
    cutLoop text (e :: rest) e acc = cutLoop text rest e acc := by
  show (if e > e then Except.error () else if e = e then cutLoop text rest e acc
      else cutLoop text rest e (acc ++ [sliceTxt text e e])) = _
  rw [if_neg (by omega), if_pos rfl]

/-- Master isolation theorem: if `text[p:E]` walks to a terminal node, no
vocabulary word ends at or before `p`, no partial match begun before `p`
survives past `p`, and no vocabulary word extends `text[p:...]` beyond `E`,
then `split` emits `text[p:E]` as one of its fragments. -/
theorem split_isolates (t : Trie) (text : List Char) (p E : Nat)
    (hpE : p < E) (hE : E ≤ text.length)
    (hterm : memWalk t.data (sliceTxt text p E) = true)
    (hbefore : ∀ q m, q < m → m ≤ p → memWalk t.data (sliceTxt text q m) = false)
    (hcross : ∀ q, q < p → t.data.walk? (sliceTxt text q (p + 1)) = none)
    (hnoext : ∀ m, E < m → m ≤ text.length → memWalk t.data (sliceTxt text p m) = false) :
    ∃ toks, Trie.split t text = Except.ok toks ∧ sliceTxt text p E ∈ toks := by
  obtain ⟨toks, hok, _⟩ := split_ok t text
  refine ⟨toks, hok, ?_⟩
  have hwE : (t.data.walk? (sliceTxt text p E)).isSome = true :=
    walk_isSome_of_memWalk hterm
  have hwalkable : ∀ m, p ≤ m → m ≤ E →
      (t.data.walk? (sliceTxt text p m)).isSome = true := by
    intro m h1 h2
    have hsplit : sliceTxt text p E = sliceTxt text p m ++ sliceTxt text m E :=
      (sliceTxt_append h1 h2).symm
    rw [hsplit] at hwE
    exact walk?_isSome_append hwE
  have htake : (text.take p).length = p := by
    rw [List.length_take]
    omega
  cases hdp : text.drop p with
  | nil =>
      exfalso
      have h2 := congrArg List.length hdp
      simp at h2
      omega
  | cons cc rest0 =>
      obtain ⟨hA1, hA2, hA3⟩ := runSplitA t.data text p hbefore (text.take p) 0 ⟨[], [0], 0⟩
        (by rw [List.drop_zero]; exact (List.take_append_drop p text).symm)
        (by simpa using htake) rfl rfl
        (by intro pr hpr; exact absurd hpr (List.not_mem_nil pr))
      obtain ⟨child, hchild, hstepP⟩ := charStepP t.data text p hbefore hcross
        (hwalkable (p + 1) (by omega) (by omega)) cc rest0 hdp
        (runSplit t.data text 0 (text.take p) ⟨[], [0], 0⟩) hA1 hA2 hA3
      have hBinv : BInv t.data text p (p + 1) ⟨[(p, child)], [0], 0⟩ := by
        refine ⟨rfl, rfl, child, [], rfl, hchild, ?_, ?_⟩
        · intro pr hpr
          exact absurd hpr (List.not_mem_nil pr)
        · intro k hk
          simp [keysOf] at hk
      obtain ⟨B, hBfin⟩ := runSplitB t.data text p E hE hterm hwalkable hnoext rest0 (p + 1)
        ⟨[(p, child)], [0], 0⟩ (drop_succ_of_cons hdp) (by omega) (by omega) hBinv
      have hchain : splitLoop t.data text
          = runSplit t.data text (p + 1) rest0 ⟨[(p, child)], [0], 0⟩ := by
        unfold splitLoop
        have h0 : runSplit t.data text 0 text ⟨[], [0], 0⟩
            = runSplit t.data text 0 (text.take p ++ text.drop p) ⟨[], [0], 0⟩ := by
          rw [List.take_append_drop]
        rw [h0, runSplit_append]
        have hidx : 0 + (text.take p).length = p := by simpa using htake
        rw [hidx, hdp]
        show runSplit t.data text (p + 1) rest0
          (charStep t.data text (runSplit t.data text 0 (text.take p) ⟨[], [0], 0⟩) p cc) = _
        rw [hstepP]
      have hfinal : endStates text.length (splitLoop t.data text).states
          (splitLoop t.data text).offsets = [0, p, E] ++ B := by
        rw [hchain]
        exact hBfin
      have hsplit_eq : Trie.split t text
          = cutLoop text (([0, p, E] ++ B) ++ [text.length]) 0 [] := by
        show Trie.cut_text text (endStates text.length (splitLoop t.data text).states
          (splitLoop t.data text).offsets) = _
        rw [hfinal]
        rfl
      rw [hsplit_eq] at hok
      have hc1 : cutLoop text (([0, p, E] ++ B) ++ [text.length]) 0 []
          = cutLoop text (p :: E :: (B ++ [text.length])) 0 [] := by
        show cutLoop text (0 :: p :: E :: (B ++ [text.length])) 0 [] = _
        exact cutLoop_cons_self text 0 (p :: E :: (B ++ [text.length])) []
      rw [hc1] at hok
      by_cases hp0 : p = 0
      · subst hp0
        rw [cutLoop_cons_self text 0 (E :: (B ++ [text.length])) []] at hok
        rw [cutLoop_cons_lt text E (B ++ [text.length]) 0 [] hpE] at hok
        exact cutLoop_mem text (B ++ [text.length]) E _ toks hok _ (by simp)
      · rw [cutLoop_cons_lt text p (E :: (B ++ [text.length])) 0 [] (by omega)] at hok
        rw [cutLoop_cons_lt text E (B ++ [text.length]) p _ hpE] at hok
        exact cutLoop_mem text (B ++ [text.length]) E _ toks hok _ (by simp)

/-- C6 counterexample: with vocabulary `{"ab", "bc"}` and text `"abc"`, the
word `"bc"` occurs exactly at positions 1–3 and runs to the end of the text,
and no surrounding characters extend it into a longer vocabulary word
(`"abc"` is not in the vocabulary); yet `split` returns `["ab", "c"]`, which
does not contain `"bc"`: the greedy scan matches `"ab"` first and the
occurrence of `"bc"` is swallowed instead of appearing as its own
fragment. -/
theorem claim6_swallowed_occurrence_cex :
    sliceTxt "abc".toList 1 3 = "bc".toList ∧
    "bc".toList ∈ (buildTrie ["ab".toList, "bc".toList]).tokens ∧
    "abc".toList ∉ (buildTrie ["ab".toList, "bc".toList]).tokens ∧
    Trie.split (buildTrie ["ab".toList, "bc".toList]) "abc".toList
      = Except.ok ["ab".toList, "c".toList] ∧
    "bc".toList ∉ ["ab".toList, "c".toList] := by
  refine ⟨rfl, ?_, ?_, by rfl, ?_⟩
  · decide
  · decide
  · decide

/-- C6 (amended): an exact occurrence `text[p:E]` of a vocabulary word is
emitted by `split` as its own fragment provided the occurrence is isolated
for the left-to-right greedy scan: no vocabulary word occurs ending at or
before `p`, no prefix of a vocabulary word begun before `p` is still alive
past `p`, and no vocabulary word extends the occurrence's start beyond `E`.
(The original claim assumed only that the surrounding characters do not
extend the occurrence itself; that is refuted by the counterexample in which
an overlapping earlier greedy match swallows the occurrence.) -/
theorem claim6_exact_isolation (ws : List (List Char)) (text : List Char) (p E : Nat)
    (hpE : p < E) (hE : E ≤ text.length)
    (hocc : sliceTxt text p E ∈ (buildTrie ws).tokens)
    (hbefore : ∀ q m, q < m → m ≤ p → sliceTxt text q m ∉ (buildTrie ws).tokens)
    (hcross : ∀ q, q < p → ¬ ∃ v ∈ (buildTrie ws).tokens, sliceTxt text q (p + 1) <+: v)
    (hnoext : ∀ m, E < m → m ≤ text.length → sliceTxt text p m ∉ (buildTrie ws).tokens) :
    ∃ toks, Trie.split (buildTrie ws) text = Except.ok toks ∧ sliceTxt text p E ∈ toks := by
  refine split_isolates (buildTrie ws) text p E hpE hE ?_ ?_ ?_ ?_
  · exact (agrees_buildTrie ws _).mp hocc
  · intro q m h1 h2
    cases hmw : memWalk (buildTrie ws).data (sliceTxt text q m) with
    | false => rfl
    | true => exact absurd ((agrees_buildTrie ws _).mpr hmw) (hbefore q m h1 h2)
  · intro q hq
    cases hw : (buildTrie ws).data.walk? (sliceTxt text q (p + 1)) with
    | none => rfl
    | some nd =>
        exfalso
        have hsome : ((buildTrie ws).data.walk? (sliceTxt text q (p + 1))).isSome = true := by
          rw [hw]
          rfl
        have hne : sliceTxt text q (p + 1) ≠ [] := sliceTxt_ne_nil (by omega) (by omega)
        exact hcross q hq ((walkSome_buildTrie ws _ hne).mp hsome)
  · intro m h1 h2
    cases hmw : memWalk (buildTrie ws).data (sliceTxt text p m) with
    | false => rfl
    | true => exact absurd ((agrees_buildTrie ws _).mpr hmw) (hnoext m h1 h2)

/-- Concrete instance of the amended C6: vocabulary `{"b"}`, text `"abc"`,
occurrence of `"b"` at positions 1–2.  All isolation hypotheses hold and the
occurrence is its own fragment. -/
theorem claim6_exact_isolation_witness :
    ∃ toks, Trie.split (buildTrie ["b".toList]) "abc".toList = Except.ok toks ∧
      sliceTxt "abc".toList 1 2 ∈ toks :=
  claim6_exact_isolation ["b".toList] "abc".toList 1 2 (by decide) (by decide)
    (by decide)
    (by
      intro q m h1 h2
      have hm : m = 1 := by omega
      subst hm
      have hq : q = 0 := by omega
      subst hq
      decide)
    (by
      intro q hq
      have hq2 : q = 0 := by omega
      subst hq2
      decide)
    (by
      intro m h1 h2
      have hlen : ("abc".toList).length = 3 := rfl
      have hm : m = 3 := by omega
      subst hm
      decide)
